import Mathlib

/-!
Verification development for the branjs view core: template compilation and
view-tree runtime.

The definitions below are a shallow embedding of the TypeScript sources:

* `Compiler.compileViewRef`, `Compiler.compileChildren`, `Compiler.getViewNodes`,
  `Compiler.buildViewNode`, `Compiler.compile`, `Compiler.getInstance` embed
  src/view/compiler/compiler.ts (the private-method underscore prefix is dropped).
* `View.construct`, `View.getInstance`, `View.bootstrap` embed the View
  orchestrator (src/view/view.ts).
* The collaborators whose sources are not part of the compiler/view files —
  Tree/TreeNode, Parser, BindingBuilder, ComponentFactory, ViewRef's fields,
  the assertions module and the registry interface — are modelled from the
  specification (sections 4.1–4.4, 4.6 and 6), as indicated on each definition.

Mutable JS objects are represented by a store `St`: view nodes and view refs
live in id-indexed lists, and the observable actions of a run (component
factory invocations, view-ref creation, compiled-flag writes, child-selector
resolution, lifecycle calls) are recorded in an event trace.  JS `undefined`
is represented by `Option.none`; a thrown `TypeError` (dereference of
`undefined`) by `Err.typeError`.  The unbounded recursion of
`_compileViewRef` is made total with a fuel argument; running out of fuel is
a distinguished error, and all theorems about successful compilations are
stated conditionally on an `.ok` result.
-/

namespace Branjs

/-!
Identifiers: ViewNode records and ViewRef records are identified by their
index (a `Nat`) in the store lists below.  Display elements are opaque to
the core; we identify them by numbers as well.  Plain `Nat` is used for all
three roles.
-/

/-- Modelled from the spec (section 4.2): a raw data-binding declaration as
extracted by the parser into the Template AST. -/
structure RawBinding where
  expression : String
deriving DecidableEq, Repr

/-- Modelled from the spec (sections 3 and 4.3): a live Binding produced by
the Binding Builder; it records the captured expression and the owning view
node. -/
structure Binding where
  expression : String
  ownerNode : Nat
deriving DecidableEq, Repr

/-- Modelled from the spec (section 4.2 and the directive module): the
directive optionally attached to a template element.  The compiler under
verification never inspects it. -/
structure TemplateASTDirective where
  kind : String
  guard : String
deriving DecidableEq, Repr

/-- Modelled from the spec (section 4.2): the Template AST produced by the
parser — a tree of elements annotated with an optional child-component
selector, raw bindings and an optional directive. -/
inductive TemplateAST where
  | node (element : Nat) (componentSelector : Option String)
      (bindings : List RawBinding) (directive : Option TemplateASTDirective)
      (children : List TemplateAST)

namespace TemplateAST

def element : TemplateAST → Nat
  | .node e _ _ _ _ => e

def componentSelector : TemplateAST → Option String
  | .node _ s _ _ _ => s

def bindings : TemplateAST → List RawBinding
  | .node _ _ b _ _ => b

def children : TemplateAST → List TemplateAST
  | .node _ _ _ _ c => c

end TemplateAST

/-- Modelled from the spec (section 3): a registered Component Type together
with its attached metadata record (selector, template markup). -/
structure Component where
  selector : String
  template : String
deriving DecidableEq, Repr

/-- Modelled from the spec (section 3): a Component Reference — instance plus
selector, template and host element; immutable after creation. -/
structure ComponentRef where
  selector : String
  template : String
  hostElement : Nat
deriving DecidableEq, Repr

/-- Modelled from the spec (section 6): the components registry interface,
an external collaborator supplying selector lookup and the entry component. -/
structure ComponentsRegistry where
  components : List Component
  entry : Option Component
deriving DecidableEq, Repr

/-- Registry lookup: getBySelector returns the component type for a selector,
or undefined (`none`) on a miss (spec section 6). -/
def ComponentsRegistry.getBySelector (reg : ComponentsRegistry) (sel : String) :
    Option Component :=
  reg.components.find? (fun c => c.selector = sel)

/-- Registry lookup for the entry component (spec section 6). -/
def ComponentsRegistry.getEntryComponent (reg : ComponentsRegistry) : Option Component :=
  reg.entry

/-- Stored state of one ViewNode object (src/view/view-node, fields per spec
section 3): element, optional component selector, built bindings, and the
back-reference to a child ViewRef that is assigned post-hoc during
compilation. -/
structure ViewNodeData where
  element : Nat
  componentSelector : Option String
  bindings : List Binding
  viewRef : Option Nat
deriving DecidableEq, Repr

/-- Rose tree used for both tree instantiations of the generic Tree/TreeNode
class (src/structs, modelled from spec section 4.1): a node owns its data and
its ordered list of children. -/
inductive RTree (α : Type) where
  | node (data : α) (children : List (RTree α))

/-- Tree of ViewNode ids: the ViewNode tree of one ViewRef. -/
abbrev NTree := RTree Nat

/-- Tree of ViewRef ids: the shared View Reference tree. -/
abbrev VTree := RTree Nat

namespace RTree

def rootData : RTree α → α
  | .node a _ => a

def childrenOf : RTree α → List (RTree α)
  | .node _ ts => ts

mutual

/-- Depth-first pre-order listing of the data of all nodes, siblings in
insertion order — the visit order of traverseDF (spec section 4.1). -/
def preorder : RTree α → List α
  | .node a ts => a :: preorderList ts

def preorderList : List (RTree α) → List α
  | [] => []
  | t :: ts => preorder t ++ preorderList ts

end

/-- Depth-first pre-order listing of all nodes except the root: the nodes the
compiler's child-discovery loop visits with isRoot false. -/
def nonRootPreorder : RTree α → List α
  | .node _ ts => preorderList ts

mutual

def size : RTree α → Nat
  | .node _ ts => 1 + sizeList ts

def sizeList : List (RTree α) → Nat
  | [] => 0
  | t :: ts => size t + sizeList ts

end

/-- Breadth-first traversal worker; the fuel bounds the number of levels. -/
def bfsAux : Nat → List (RTree α) → List α
  | 0, _ => []
  | _ + 1, [] => []
  | fuel + 1, t :: ts =>
      (t :: ts).map rootData ++ bfsAux fuel ((t :: ts).flatMap childrenOf)

/-- Breadth-first listing of all node data starting at the root — the visit
order of traverseBF (spec section 4.1).  The tree size bounds its depth, so
it serves as fuel. -/
def bfs (t : RTree α) : List α := bfsAux t.size [t]

end RTree

mutual

/-- Grafting of the generic Tree class (modelled from spec section 4.1):
Tree.add creates a node for `x` and appends it as the last child of the first
node holding `p` (depth-first search order); it fails (`none`) when `p` is
not present in the tree. -/
def VTree.addUnder : VTree → Nat → Nat → Option VTree
  | .node a ts, p, x =>
    if a = p then some (.node a (ts ++ [.node x []]))
    else
      match VTree.addUnderList ts p x with
      | some ts' => some (.node a ts')
      | none => none

def VTree.addUnderList : List VTree → Nat → Nat → Option (List VTree)
  | [], _, _ => none
  | t :: ts, p, x =>
    match VTree.addUnder t p x with
    | some t' => some (t' :: ts)
    | none =>
      match VTree.addUnderList ts p x with
      | some ts' => some (t :: ts')
      | none => none

end

mutual

/-- Children (as data) of the first node holding `q`, in insertion order;
empty when `q` is absent.  The located node is the same one Tree.add targets. -/
def VTree.childrenIds : VTree → Nat → List Nat
  | .node a ts, q =>
    if a = q then ts.map RTree.rootData
    else VTree.childrenIdsList ts q

def VTree.childrenIdsList : List VTree → Nat → List Nat
  | [], _ => []
  | t :: ts, q =>
    if q ∈ t.preorder then VTree.childrenIds t q
    else VTree.childrenIdsList ts q

end

/-- Parent/child compilation edge in the View Reference tree: `c` is a direct
child of the node holding `q`. -/
def VTree.Edge (t : VTree) (q c : Nat) : Prop := c ∈ t.childrenIds q

/-- Stored state of one ViewRef object (fields per spec section 3): its
Component Reference, its ViewNode tree, the current render host and the
compiled flag.  Per spec section 4.6 a ViewRef starts uncompiled
(`compiled = false`) with no render host. -/
structure ViewRefData where
  componentRef : ComponentRef
  nodesTree : NTree
  renderHost : Option Nat
  compiled : Bool

/-- Observable events of a run. -/
inductive Ev where
  | factoryCreate (component : Option Component) (host : Nat)
  | createViewRef (id : Nat)
  | setCompiled (id : Nat)
  | resolveChild (hostNode : Nat) (selector : String)
  | initRef (id : Nat)
  | updateRef (id : Nat)
deriving DecidableEq, Repr

/-- Lifecycle events are the init/update calls driven by View.bootstrap. -/
def Ev.isLifecycle : Ev → Bool
  | .initRef _ => true
  | .updateRef _ => true
  | _ => false

/-- Errors a run can signal.  `typeError` stands for a JavaScript TypeError
raised by dereferencing `undefined`; `structuralError` is Tree.add's failure
(spec section 4.1); `entryComponentNotRegistered` is the bootstrap assertion
failure (spec sections 4.7 and 7); `unknownComponent` is listed in the
spec's error taxonomy (section 7) — no code path of the compiler source
produces it; `outOfFuel` is the artifact of making the recursion total. -/
inductive Err where
  | typeError
  | structuralError
  | entryComponentNotRegistered
  | unknownComponent
  | dependencyResolution
  | outOfFuel
deriving DecidableEq, Repr

/-- The store: all ViewNode and ViewRef objects ever created (indexed by
their id) and the chronological event trace. -/
structure St where
  nodes : List ViewNodeData
  refs : List ViewRefData
  trace : List Ev

def St.empty : St := ⟨[], [], []⟩

def St.pushEv (st : St) (e : Ev) : St := { st with trace := st.trace ++ [e] }

/-- Allocation of a fresh ViewNode object. -/
def St.allocNode (st : St) (d : ViewNodeData) : Nat × St :=
  (st.nodes.length, { st with nodes := st.nodes ++ [d] })

/-- Allocation of a fresh ViewRef object (`new ViewRef(componentRef,
nodesTree)`), recorded in the trace. -/
def St.allocRef (st : St) (d : ViewRefData) : Nat × St :=
  (st.refs.length,
   { st with refs := st.refs ++ [d],
             trace := st.trace ++ [.createViewRef st.refs.length] })

/-- Assignment `hostViewNode.data.viewRef = viewRef` on a stored ViewNode. -/
def St.setNodeViewRef (st : St) (n : Nat) (r : Nat) : St :=
  match st.nodes[n]? with
  | some nd => { st with nodes := st.nodes.set n { nd with viewRef := some r } }
  | none => st

/-- Assignment of the built bindings onto a stored ViewNode. -/
def St.setNodeBindings (st : St) (n : Nat) (bs : List Binding) : St :=
  match st.nodes[n]? with
  | some nd => { st with nodes := st.nodes.set n { nd with bindings := bs } }
  | none => st

/-- ViewRef.updateRenderHost (modelled from spec section 4.6): sets the
display-surface mount point of the ViewRef. -/
def St.updateRenderHost (st : St) (r : Nat) (host : Nat) : St :=
  match st.refs[r]? with
  | some rd => { st with refs := st.refs.set r { rd with renderHost := some host } }
  | none => st

/-- Assignment `viewRef.compiled = true`, recorded in the trace.  This is the
only write to the compiled flag anywhere in the sources, and it always writes
`true`. -/
def St.setCompiled (st : St) (r : Nat) : St :=
  match st.refs[r]? with
  | some rd =>
      { st with refs := st.refs.set r { rd with compiled := true },
                trace := st.trace ++ [.setCompiled r] }
  | none => { st with trace := st.trace ++ [.setCompiled r] }

/-- Modelled from the spec (section 4.3): the Binding Builder, converting a
raw declared binding into a live Binding owned by the given view node. -/
structure BindingBuilder where
  build : RawBinding → Nat → Binding

/-- The canonical binding builder: captures the expression and the owner. -/
def specBindingBuilder : BindingBuilder := ⟨fun rb n => ⟨rb.expression, n⟩⟩

/-- Modelled from the spec (section 4.2): the Parser.  Its string-scanning
internals are out of scope; we model it as an oracle mapping a template (and
the host element) to the list of Template AST subtrees scanned from the
markup.  `Parser.parse` then roots them at a node representing the host
element itself — the root carries no componentSelector, bindings or
directive, since those are recorded on elements encountered while scanning
the template. -/
structure Parser where
  scan : String → Nat → List TemplateAST

/-- parse(template, hostElement) -> TemplateAST, rooted at the host element
(spec section 4.2). -/
def Parser.parse (p : Parser) (template : String) (host : Nat) : TemplateAST :=
  .node host none [] none (p.scan template host)

/-- Modelled from the spec (section 4.4): the Component Factory.  Dependency
resolution through the injection container is abstracted as always
succeeding (its failure mode is out of scope of the claims); `create` reads
the attached metadata of the component type and produces a Component
Reference.  Invoked with `undefined` (a registry miss forwarded by the
compiler) it fails with a TypeError, as reading metadata dereferences the
argument. -/
structure ComponentFactory where
  resolvable : Unit
deriving Repr

def ComponentFactory.create (_f : ComponentFactory) (c : Option Component)
    (host : Nat) : Except Err ComponentRef :=
  match c with
  | none => .error .typeError
  | some comp => .ok ⟨comp.selector, comp.template, host⟩

/-- The Compiler's constructor-injected collaborators
(src/view/compiler/compiler.ts).  The fourth parameter of the TypeScript
constructor, the binding builder, is `Option`-valued because the View
orchestrator omits it at the call site, leaving the field `undefined`. -/
structure Compiler where
  parser : Parser
  componentFactory : ComponentFactory
  componentsRegistry : ComponentsRegistry
  bindingBuilder : Option BindingBuilder

/-- Compiler.getInstance (compiler.ts lines 46-62): lazily constructs the
process-wide singleton from the first call's arguments and returns the
stored instance ever after.  The `inst` argument and second component of the
result model the static `_instance` field. -/
def Compiler.getInstance (inst : Option Compiler) (parser : Parser)
    (componentFactory : ComponentFactory) (componentsRegistry : ComponentsRegistry)
    (bindingBuilder : Option BindingBuilder) : Compiler × Option Compiler :=
  match inst with
  | some c => (c, some c)
  | none =>
      let c : Compiler := ⟨parser, componentFactory, componentsRegistry, bindingBuilder⟩
      (c, some c)

namespace Compiler

/-- Compiler._buildViewNode (compiler.ts lines 181-190): creates a ViewNode
for the AST node's element, copies the componentSelector, and maps every raw
binding through the binding builder.  When the builder field is `undefined`
(`none`) and the binding list is non-empty, the first callback invocation
dereferences `undefined` and throws; an empty list never invokes the
callback. -/
def buildViewNode (bb : Option BindingBuilder) (element : Nat)
    (sel : Option String) (bindings : List RawBinding) (st : St) :
    Except Err Nat × St :=
  let (nid, st) := st.allocNode ⟨element, sel, [], none⟩
  match bindings with
  | [] => (.ok nid, st)
  | _ =>
    match bb with
    | none => (.error .typeError, st)
    | some builder =>
        (.ok nid, st.setNodeBindings nid (bindings.map (fun rb => builder.build rb nid)))

mutual

/-- Compiler._getViewNodes (compiler.ts lines 161-179): transforms a Template
AST (sub)tree into a ViewNode tree, one ViewNode per AST node, children in
order (Tree.add appends as last child, spec section 4.1). -/
def getViewNodes (bb : Option BindingBuilder) (ast : TemplateAST) (st : St) :
    Except Err NTree × St :=
  match ast with
  | .node el sel bnds _dir children =>
    match buildViewNode bb el sel bnds st with
    | (.error e, st) => (.error e, st)
    | (.ok nid, st) =>
      match getViewNodesList bb children st with
      | (.error e, st) => (.error e, st)
      | (.ok ts, st) => (.ok (.node nid ts), st)

def getViewNodesList (bb : Option BindingBuilder) (asts : List TemplateAST) (st : St) :
    Except Err (List NTree) × St :=
  match asts with
  | [] => (.ok [], st)
  | a :: rest =>
    match getViewNodes bb a st with
    | (.error e, st) => (.error e, st)
    | (.ok t, st) =>
      match getViewNodesList bb rest st with
      | (.error e, st) => (.error e, st)
      | (.ok ts, st) => (.ok (t :: ts), st)

end

mutual

/-- Compiler._compileViewRef (compiler.ts lines 70-154), fuel-indexed.
Faithful steps: create the ComponentRef through the factory (the component
argument is whatever the caller supplied — at recursive call sites the raw
result of a registry lookup); parse the ComponentRef's template rooted at
the host; build the ViewNode tree; create the ViewRef; on the outermost call
(`viewRefTree` and `parentViewRef` both null) create the tree with this
ViewRef as root and immediately fix its render host, otherwise graft under
the caller-supplied parent; record this ViewRef on the caller-supplied
hosting ViewNode if any; traverse the new ViewNode tree depth-first and for
every non-root node carrying a componentSelector recurse with the registry
lookup of that selector; finally set this ViewRef's compiled flag. -/
def compileViewRef (C : Compiler) (fuel : Nat) (component : Option Component)
    (host : Nat) (viewRefTree : Option VTree) (parentViewRef : Option Nat)
    (hostViewNode : Option Nat) (st : St) : Except Err VTree × St :=
  match fuel with
  | 0 => (.error .outOfFuel, st)
  | fuel + 1 =>
    let st := st.pushEv (.factoryCreate component host)
    match C.componentFactory.create component host with
    | .error e => (.error e, st)
    | .ok componentRef =>
      let ast := C.parser.parse componentRef.template host
      match getViewNodes C.bindingBuilder ast st with
      | (.error e, st) => (.error e, st)
      | (.ok nodesTree, st) =>
        let (refId, st) := st.allocRef ⟨componentRef, nodesTree, none, false⟩
        match viewRefTree, parentViewRef with
        | none, none =>
            let tree : VTree := .node refId []
            let st := st.updateRenderHost refId host
            compileAfterGraft C fuel refId nodesTree tree hostViewNode st
        | some t, some p =>
            match VTree.addUnder t p refId with
            | none => (.error .structuralError, st)
            | some tree => compileAfterGraft C fuel refId nodesTree tree hostViewNode st
        | none, some _ => (.error .typeError, st)
        | some _, none => (.error .structuralError, st)
  termination_by structural fuel

/-- Continuation of _compileViewRef after the ViewRef has been placed in the
shared tree: the hostViewNode back-reference assignment, the child-discovery
traversal, and the compiled-flag write. -/
def compileAfterGraft (C : Compiler) (fuel : Nat) (refId : Nat)
    (nodesTree : NTree) (tree : VTree) (hostViewNode : Option Nat) (st : St) :
    Except Err VTree × St :=
  match fuel with
  | 0 => (.error .outOfFuel, st)
  | fuel + 1 =>
    let st :=
      match hostViewNode with
      | some nid => st.setNodeViewRef nid refId
      | none => st
    match compileChildren C fuel nodesTree.nonRootPreorder tree refId st with
    | (.error e, st) => (.error e, st)
    | (.ok tree, st) =>
        let st := st.setCompiled refId
        (.ok tree, st)
  termination_by structural fuel

/-- The child-discovery loop of _compileViewRef (compiler.ts lines 139-149):
depth-first over the ViewNode tree, skipping the root node; every visited
node carrying a componentSelector triggers a recursive compilation with the
registry lookup of the selector, the node's element as host, the current
ViewRef as parent and the node itself as hosting ViewNode. -/
def compileChildren (C : Compiler) (fuel : Nat) (nids : List Nat)
    (tree : VTree) (parentRef : Nat) (st : St) : Except Err VTree × St :=
  match fuel with
  | 0 => (.error .outOfFuel, st)
  | fuel + 1 =>
    match nids with
    | [] => (.ok tree, st)
    | nid :: rest =>
      match st.nodes[nid]? with
      | none => (.error .typeError, st)
      | some nd =>
        match nd.componentSelector with
        | none => compileChildren C fuel rest tree parentRef st
        | some sel =>
            let st := st.pushEv (.resolveChild nid sel)
            match compileViewRef C fuel (C.componentsRegistry.getBySelector sel)
                nd.element (some tree) (some parentRef) (some nid) st with
            | (.error e, st) => (.error e, st)
            | (.ok tree, st) => compileChildren C fuel rest tree parentRef st
  termination_by structural fuel

end

/-- Compiler.compile (compiler.ts lines 64-66): delegates to _compileViewRef
with the default null tree, parent and hosting node. -/
def compile (C : Compiler) (fuel : Nat) (component : Component) (host : Nat)
    (st : St) : Except Err VTree × St :=
  compileViewRef C fuel (some component) host none none none st

end Compiler

/-- Modelled from the spec (section 4.7): assertEntryComponentRegistered from
the assertions module fails fatally with EntryComponentNotRegisteredError
when the entry component is absent. -/
def assertEntryComponentRegistered (c : Option Component) : Except Err Component :=
  match c with
  | none => .error .entryComponentNotRegistered
  | some comp => .ok comp

/-- The View orchestrator's state (src/view/view.ts): its injected root and
registry, its lazily built collaborators, and the compiled View Reference
tree. -/
structure View where
  componentsRegistry : ComponentsRegistry
  parser : Parser
  compiler : Compiler
  componentFactory : ComponentFactory
  viewRefTree : Option VTree

/-- The View constructor (view.ts): builds the component factory and parser,
then obtains the Compiler singleton.  The TypeScript call site is
`Compiler.getInstance(this._parser, this._componentFactory,
this._componentsRegistry)` — three arguments, so the fourth (binding
builder) parameter is `undefined` (`none` here).  The compiler-singleton
cell is threaded in and out. -/
def View.construct (compilerInst : Option Compiler)
    (componentsRegistry : ComponentsRegistry) (parser : Parser) :
    View × Option Compiler :=
  let componentFactory : ComponentFactory := ⟨()⟩
  let (compiler, compilerInst) :=
    Compiler.getInstance compilerInst parser componentFactory componentsRegistry none
  (⟨componentsRegistry, parser, compiler, componentFactory, none⟩, compilerInst)

/-- View.getInstance (view.ts): the View singleton, lazily constructed from
the first call's arguments. -/
def View.getInstance (inst : Option View) (compilerInst : Option Compiler)
    (componentsRegistry : ComponentsRegistry) (parser : Parser) :
    View × Option View × Option Compiler :=
  match inst with
  | some v => (v, some v, compilerInst)
  | none =>
      let (v, ci) := View.construct compilerInst componentsRegistry parser
      (v, some v, ci)

/-- View.bootstrap (view.ts): looks up the entry component, asserts it is
registered, compiles the View Reference tree, traverses it breadth-first
calling init() on every ViewRef, and finally calls update() once on the root
ViewRef.  The init/update calls are recorded as trace events (the ViewRef
lifecycle bodies are modelled from spec section 4.6 only through their
observable invocation). -/
def View.bootstrap (v : View) (fuel : Nat) (appHost : Nat) (st : St) :
    Except Err (View × VTree) × St :=
  match assertEntryComponentRegistered v.componentsRegistry.getEntryComponent with
  | .error e => (.error e, st)
  | .ok entryComponent =>
    match v.compiler.compile fuel entryComponent appHost st with
    | (.error e, st) => (.error e, st)
    | (.ok tree, st) =>
        let st := { st with trace := st.trace ++ tree.bfs.map Ev.initRef }
        let st := st.pushEv (.updateRef tree.rootData)
        (.ok ({ v with viewRefTree := some tree }, tree), st)

end Branjs

namespace Branjs

/-! ### Derived definitions: id ranges, trace predicates, run fixtures -/

/-- List of `n` consecutive ids starting at `s`: the ids of objects allocated
consecutively from a store of size `s`. -/
def idRange : Nat → Nat → List Nat
  | _, 0 => []
  | s, n + 1 => s :: idRange (s + 1) n

/-- Event `a` occurs strictly before event `b` somewhere in the trace. -/
def PrecedesL (l : List Ev) (a b : Ev) : Prop :=
  ∃ i j : Nat, i < j ∧ l[i]? = some a ∧ l[j]? = some b

mutual

/-- Whether some node of the Template AST declares at least one raw binding. -/
def TemplateAST.hasBindingNode : TemplateAST → Bool
  | .node _ _ bnds _ children => !bnds.isEmpty || TemplateAST.hasBindingNodeList children

def TemplateAST.hasBindingNodeList : List TemplateAST → Bool
  | [] => false
  | a :: rest => a.hasBindingNode || TemplateAST.hasBindingNodeList rest

end

/-- Repeated calls of Compiler.getInstance, threading the singleton cell;
returns the instances handed back to the callers in order. -/
def Compiler.runGetInstances (inst : Option Compiler) :
    List (Parser × ComponentFactory × ComponentsRegistry × Option BindingBuilder) →
      List Compiler
  | [] => []
  | (p, f, r, b) :: rest =>
      let res := Compiler.getInstance inst p f r b
      res.1 :: Compiler.runGetInstances res.2 rest

/-- Repeated calls of View.getInstance, threading both singleton cells. -/
def View.runGetInstances (inst : Option View) (ci : Option Compiler) :
    List (ComponentsRegistry × Parser) → List View
  | [] => []
  | (r, p) :: rest =>
      let res := View.getInstance inst ci r p
      res.1 :: View.runGetInstances res.2.1 res.2.2 rest

/-- Structure-preserving correspondence between a built ViewNode tree (ids
into the store `st`) and the Template AST it was built from: one ViewNode
per AST node, same parent/child structure and sibling order, same element
and componentSelector, and the bindings of each node are exactly the raw
bindings mapped through the binding builder with that node as owner. -/
inductive MirrorsAST (b : BindingBuilder) (st : St) : NTree → TemplateAST → Prop where
  | node {nid : Nat} {nd : ViewNodeData} {el : Nat} {sel : Option String}
      {bnds : List RawBinding} {dir : Option TemplateASTDirective}
      {ts : List NTree} {children : List TemplateAST}
      (hget : st.nodes[nid]? = some nd)
      (hel : nd.element = el)
      (hsel : nd.componentSelector = sel)
      (hbnd : nd.bindings = bnds.map (fun rb => b.build rb nid))
      (hchildren : List.Forall₂ (MirrorsAST b st) ts children) :
      MirrorsAST b st (.node nid ts) (.node el sel bnds dir children)

/-- Id of the ViewRef created by a creation event. -/
def Ev.createdId : Ev → Option Nat
  | .createViewRef i => some i
  | _ => none

/-- Record stability between two stores: every ViewRef record keeps its
ViewNode tree and every ViewNode record keeps its componentSelector and
element (only renderHost, compiled flags, bindings and viewRef
back-references are ever written after creation). -/
def RecStable (st st2 : St) : Prop :=
  (∀ (i : Nat) (rd : ViewRefData), st.refs[i]? = some rd →
    ∃ rd2 : ViewRefData, st2.refs[i]? = some rd2 ∧ rd2.nodesTree = rd.nodesTree) ∧
  (∀ (i : Nat) (nd : ViewNodeData), st.nodes[i]? = some nd →
    ∃ nd2 : ViewNodeData, st2.nodes[i]? = some nd2 ∧
      nd2.componentSelector = nd.componentSelector ∧ nd2.element = nd.element)

/-- Soundness of the child-resolution events of a trace slice with respect to
a store: every resolveChild event names a node that is a non-root node of the
ViewNode tree of some stored ViewRef and carries exactly the resolved
selector. -/
def ResolveSoundProp (st2 : St) (Δ : List Ev) : Prop :=
  ∀ nid sel, Ev.resolveChild nid sel ∈ Δ →
    ∃ (r : Nat) (rd : ViewRefData) (nd : ViewNodeData),
      st2.refs[r]? = some rd ∧ nid ∈ rd.nodesTree.nonRootPreorder ∧
      nid ≠ rd.nodesTree.rootData ∧ st2.nodes[nid]? = some nd ∧
      nd.componentSelector = some sel

/-- Store evolution produced by a (sub)compilation step: `touched` is the set
of pre-existing ViewNodes whose viewRef back-reference the step may assign. -/
structure CoreExt (st st2 : St) (touched : List Nat) : Prop where
  refsLen : st.refs.length ≤ st2.refs.length
  refsNewCompiled : ∀ (i : Nat) (rd : ViewRefData), st.refs.length ≤ i →
    st2.refs[i]? = some rd → rd.compiled = true
  nodesLen : st.nodes.length ≤ st2.nodes.length
  nodesFrame : ∀ i, i < st.nodes.length → i ∉ touched → st2.nodes[i]? = st.nodes[i]?
  nodesTouched : ∀ i, i ∈ touched → ∃ nd : ViewNodeData, st.nodes[i]? = some nd ∧
    (st2.nodes[i]? = some nd ∨ ∃ r, st2.nodes[i]? = some { nd with viewRef := some r })
  nodesNewSel : ∀ (i : Nat) (nd : ViewNodeData), st.nodes.length ≤ i →
    st2.nodes[i]? = some nd → nd.componentSelector.isSome = true →
    nd.viewRef.isSome = true
  recStable : RecStable st st2

/-- Trace slice produced by a (sub)compilation step creating the ViewRefs
`B, B+1, ..., B+k-1`: no lifecycle events; the creation events are exactly
those ids in allocation order; each created ViewRef's compiled flag is set
exactly once (and no other setCompiled event occurs), after its creation;
and every child-resolution event is sound for the final store. -/
structure DeltaSpec (B k : Nat) (st2 : St) (Δ : List Ev) : Prop where
  lifecycleFree : ∀ e ∈ Δ, e.isLifecycle = false
  createSeq : Δ.filterMap Ev.createdId = idRange B k
  scCount : ∀ r, Δ.count (.setCompiled r) = if B ≤ r ∧ r < B + k then 1 else 0
  createBeforeSc : ∀ r, B ≤ r → r < B + k →
    PrecedesL Δ (.createViewRef r) (.setCompiled r)
  resolveSound : ResolveSoundProp st2 Δ

/-- Full specification of a successful `compileViewRef` call (modulo the
shape of the returned tree, which is treated separately). -/
def VStmt (fuel : Nat) : Prop :=
  ∀ (C : Compiler) (component : Option Component) (host : Nat) (vt : Option VTree)
    (pv : Option Nat) (hv : Option Nat) (st : St) (t' : VTree) (st' : St),
    Compiler.compileViewRef C fuel component host vt pv hv st = (.ok t', st') →
    (∀ h, hv = some h → h < st.nodes.length) →
    ∃ k, 1 ≤ k ∧ st'.refs.length = st.refs.length + k ∧
      (∀ i, i < st.refs.length → st'.refs[i]? = st.refs[i]?) ∧
      CoreExt st st' hv.toList ∧
      (∀ h, hv = some h → ∃ nd : ViewNodeData, st.nodes[h]? = some nd ∧
        st'.nodes[h]? = some { nd with viewRef := some st.refs.length }) ∧
      ∃ Δ, st'.trace = st.trace ++ Δ ∧ DeltaSpec st.refs.length k st' Δ ∧
        Δ.getLast? = some (.setCompiled st.refs.length)

/-- Full specification of a successful `compileAfterGraft` call. -/
def AStmt (fuel : Nat) : Prop :=
  ∀ (C : Compiler) (refId : Nat) (nodesTree : NTree) (tree : VTree)
    (hv : Option Nat) (st : St) (t' : VTree) (st' : St),
    Compiler.compileAfterGraft C fuel refId nodesTree tree hv st = (.ok t', st') →
    st.refs.length = refId + 1 →
    (∀ h, hv = some h → h < st.nodes.length ∧ h ∉ nodesTree.nonRootPreorder) →
    (∀ nid, nid ∈ nodesTree.nonRootPreorder → nid < st.nodes.length) →
    (∃ rd0 : ViewRefData, st.refs[refId]? = some rd0 ∧ rd0.nodesTree = nodesTree ∧
      nodesTree.rootData ∉ nodesTree.nonRootPreorder) →
    ∃ k, st'.refs.length = st.refs.length + k ∧
      (∀ i, i < st.refs.length → i ≠ refId → st'.refs[i]? = st.refs[i]?) ∧
      (∃ rd0 : ViewRefData, st.refs[refId]? = some rd0 ∧
        st'.refs[refId]? = some { rd0 with compiled := true }) ∧
      CoreExt st st' (hv.toList ++ nodesTree.nonRootPreorder) ∧
      (∀ h, hv = some h → ∃ nd : ViewNodeData, st.nodes[h]? = some nd ∧
        st'.nodes[h]? = some { nd with viewRef := some refId }) ∧
      (∀ i, i ∈ nodesTree.nonRootPreorder → ∀ nd : ViewNodeData,
        st.nodes[i]? = some nd → nd.componentSelector.isSome = true →
        ∃ nd2 : ViewNodeData, st'.nodes[i]? = some nd2 ∧ nd2.viewRef.isSome = true) ∧
      ∃ Δ, st'.trace = st.trace ++ Δ ∧
        (∀ e ∈ Δ, e.isLifecycle = false) ∧
        Δ.filterMap Ev.createdId = idRange st.refs.length k ∧
        (∀ r, Δ.count (.setCompiled r) =
          if refId ≤ r ∧ r < st.refs.length + k then 1 else 0) ∧
        (∀ r, st.refs.length ≤ r → r < st.refs.length + k →
          PrecedesL Δ (.createViewRef r) (.setCompiled r)) ∧
        Δ.getLast? = some (.setCompiled refId) ∧
        ResolveSoundProp st' Δ

/-- Full specification of a successful `compileChildren` loop. -/
def CStmt (fuel : Nat) : Prop :=
  ∀ (C : Compiler) (nids : List Nat) (tree : VTree) (P : Nat) (st : St)
    (t' : VTree) (st' : St),
    Compiler.compileChildren C fuel nids tree P st = (.ok t', st') →
    (∀ nid, nid ∈ nids → nid < st.nodes.length) →
    (∃ rdP : ViewRefData, st.refs[P]? = some rdP ∧ P < st.refs.length ∧
      ∀ nid, nid ∈ nids → nid ∈ rdP.nodesTree.nonRootPreorder ∧
        nid ≠ rdP.nodesTree.rootData) →
    ∃ k, st'.refs.length = st.refs.length + k ∧
      (∀ i, i < st.refs.length → st'.refs[i]? = st.refs[i]?) ∧
      CoreExt st st' nids ∧
      (∀ i, i ∈ nids → ∀ nd : ViewNodeData, st.nodes[i]? = some nd →
        nd.componentSelector.isSome = true →
        ∃ nd2 : ViewNodeData, st'.nodes[i]? = some nd2 ∧ nd2.viewRef.isSome = true) ∧
      ∃ Δ, st'.trace = st.trace ++ Δ ∧ DeltaSpec st.refs.length k st' Δ

/-- Tree-shape and compilation-order specification of a successful
`compileViewRef` call: on the outermost call (no tree, no parent) the
returned tree is rooted at the new ViewRef, covers exactly the ViewRefs the
call created, the root's render host is fixed to the given host, and along
every edge the child's compiled flag is set before the parent's; on a
recursive call the new ViewRef is grafted as the last child of the
caller-supplied parent, the rest of the tree is untouched, and every edge of
the returned tree is an old edge, the fresh graft edge, or an edge between
two newly created ViewRefs ordered child-compiled-before-parent-compiled. -/
def V2Stmt (fuel : Nat) : Prop :=
  ∀ (C : Compiler) (component : Option Component) (host : Nat) (vt : Option VTree)
    (pv : Option Nat) (hv : Option Nat) (st : St) (t' : VTree) (st' : St),
    Compiler.compileViewRef C fuel component host vt pv hv st = (.ok t', st') →
    (∀ h, hv = some h → h < st.nodes.length) →
    (vt = none → pv = none →
      ∃ k, st'.refs.length = st.refs.length + k ∧
      ∃ Δ, st'.trace = st.trace ++ Δ ∧
        t'.rootData = st.refs.length ∧
        t'.preorder.Perm (idRange st.refs.length k) ∧
        (∃ rd : ViewRefData, st'.refs[st.refs.length]? = some rd ∧
          rd.renderHost = some host) ∧
        (∀ q c, VTree.Edge t' q c → st.refs.length ≤ q ∧ st.refs.length ≤ c ∧
          PrecedesL Δ (.setCompiled c) (.setCompiled q))) ∧
    (∀ t p, vt = some t → pv = some p →
      p ∈ t.preorder → t.preorder.Nodup → (∀ y ∈ t.preorder, y < st.refs.length) →
      ∃ k, st'.refs.length = st.refs.length + k ∧
      ∃ Δ, st'.trace = st.trace ++ Δ ∧
        t'.rootData = t.rootData ∧
        t'.preorder.Perm (t.preorder ++ idRange st.refs.length k) ∧
        t'.childrenIds p = t.childrenIds p ++ [st.refs.length] ∧
        (∀ q, q ∈ t.preorder → q ≠ p → t'.childrenIds q = t.childrenIds q) ∧
        (∀ q c, VTree.Edge t' q c → VTree.Edge t q c ∨ (q = p ∧ c = st.refs.length) ∨
          (st.refs.length ≤ q ∧ st.refs.length ≤ c ∧
            PrecedesL Δ (.setCompiled c) (.setCompiled q))))

/-- Tree-shape and compilation-order specification of a successful
`compileAfterGraft` call: the input tree's root and the children lists of
all nodes other than the new ViewRef are preserved, the output tree extends
the input tree by exactly the ViewRefs the call created, and every new edge
either hangs a newly created ViewRef under the new ViewRef (whose compiled
event lies in the call's trace slice) or connects two newly created ViewRefs
with the child's compiled event preceding the parent's. -/
def A2Stmt (fuel : Nat) : Prop :=
  ∀ (C : Compiler) (refId : Nat) (nodesTree : NTree) (tree : VTree)
    (hv : Option Nat) (st : St) (t' : VTree) (st' : St),
    Compiler.compileAfterGraft C fuel refId nodesTree tree hv st = (.ok t', st') →
    st.refs.length = refId + 1 →
    (∀ h, hv = some h → h < st.nodes.length ∧ h ∉ nodesTree.nonRootPreorder) →
    (∀ nid, nid ∈ nodesTree.nonRootPreorder → nid < st.nodes.length) →
    (∃ rd0 : ViewRefData, st.refs[refId]? = some rd0 ∧ rd0.nodesTree = nodesTree ∧
      nodesTree.rootData ∉ nodesTree.nonRootPreorder) →
    refId ∈ tree.preorder → tree.preorder.Nodup →
    (∀ y ∈ tree.preorder, y < st.refs.length) →
    ∃ k, st'.refs.length = st.refs.length + k ∧
    ∃ Δ, st'.trace = st.trace ++ Δ ∧
      t'.rootData = tree.rootData ∧
      t'.preorder.Perm (tree.preorder ++ idRange st.refs.length k) ∧
      (∀ q, q ∈ tree.preorder → q ≠ refId → t'.childrenIds q = tree.childrenIds q) ∧
      (∀ q c, VTree.Edge t' q c → VTree.Edge tree q c ∨
        (q = refId ∧ st.refs.length ≤ c ∧ Ev.setCompiled c ∈ Δ) ∨
        (st.refs.length ≤ q ∧ st.refs.length ≤ c ∧
          PrecedesL Δ (.setCompiled c) (.setCompiled q)))

/-- Tree-shape and compilation-order specification of a successful
`compileChildren` loop, with the current ViewRef `P` as parent of all
grafts the loop performs directly. -/
def C2Stmt (fuel : Nat) : Prop :=
  ∀ (C : Compiler) (nids : List Nat) (tree : VTree) (P : Nat) (st : St)
    (t' : VTree) (st' : St),
    Compiler.compileChildren C fuel nids tree P st = (.ok t', st') →
    (∀ nid, nid ∈ nids → nid < st.nodes.length) →
    (∃ rdP : ViewRefData, st.refs[P]? = some rdP ∧ P < st.refs.length ∧
      ∀ nid, nid ∈ nids → nid ∈ rdP.nodesTree.nonRootPreorder ∧
        nid ≠ rdP.nodesTree.rootData) →
    P ∈ tree.preorder → tree.preorder.Nodup →
    (∀ y ∈ tree.preorder, y < st.refs.length) →
    ∃ k, st'.refs.length = st.refs.length + k ∧
    ∃ Δ, st'.trace = st.trace ++ Δ ∧
      t'.rootData = tree.rootData ∧
      t'.preorder.Perm (tree.preorder ++ idRange st.refs.length k) ∧
      (∀ q, q ∈ tree.preorder → q ≠ P → t'.childrenIds q = tree.childrenIds q) ∧
      (∀ q c, VTree.Edge t' q c → VTree.Edge tree q c ∨
        (q = P ∧ st.refs.length ≤ c ∧ Ev.setCompiled c ∈ Δ) ∨
        (st.refs.length ≤ q ∧ st.refs.length ≤ c ∧
          PrecedesL Δ (.setCompiled c) (.setCompiled q)))

/-! #### Concrete run fixtures used by the witness theorems -/

/-- Registry of the demo application: an entry component `app` and a `child`
component. -/
def demoRegistry : ComponentsRegistry :=
  ⟨[⟨"app", "appT"⟩, ⟨"child", "childT"⟩], some ⟨"app", "appT"⟩⟩

/-- Parser oracle of the demo application: the template of `app` scans to a
placeholder element for `child` plus an element carrying one raw binding
with a nested plain element; the template of `child` scans to one plain
element. -/
def demoParser : Parser :=
  ⟨fun tpl _host =>
    if tpl = "appT" then
      [ .node 10 (some "child") [] none [],
        .node 11 none [⟨"x"⟩] none [.node 12 none [] none []] ]
    else if tpl = "childT" then
      [ .node 20 none [] none [] ]
    else []⟩

/-- Demo compiler wired with a binding builder. -/
def demoCompiler : Compiler := ⟨demoParser, ⟨()⟩, demoRegistry, some specBindingBuilder⟩

/-- Demo view for bootstrap runs. -/
def demoView : View := ⟨demoRegistry, demoParser, demoCompiler, ⟨()⟩, none⟩

/-- Registry for the registry-miss run: only `app` is registered, but its
template references selector `missing`. -/
def missRegistry : ComponentsRegistry := ⟨[⟨"app", "appT"⟩], some ⟨"app", "appT"⟩⟩

/-- Parser oracle for the registry-miss run: the template of `app` scans to
one element carrying the unregistered selector `missing`. -/
def missParser : Parser :=
  ⟨fun tpl _host => if tpl = "appT" then [.node 10 (some "missing") [] none []] else []⟩

/-- Compiler for the registry-miss run. -/
def missCompiler : Compiler := ⟨missParser, ⟨()⟩, missRegistry, some specBindingBuilder⟩

/-- View whose registry has no entry component. -/
def entrylessView : View :=
  ⟨⟨[], none⟩, demoParser, demoCompiler, ⟨()⟩, none⟩

/-- Result of compiling the demo application. -/
def demoOut : Except Err VTree × St := demoCompiler.compile 10 ⟨"app", "appT"⟩ 0 St.empty

/-- The View Reference tree produced by the demo compilation: the entry
component (ref 0) with one child component (ref 1). -/
def demoTree : VTree := .node 0 [.node 1 []]

/-- Result of bootstrapping the demo view. -/
def demoBootOut : Except Err (View × VTree) × St := demoView.bootstrap 10 0 St.empty

/-- Template AST fixture for the structure-preservation witness: a root with
one child element carrying a selector and one raw binding. -/
def mirrorsDemoAst : TemplateAST :=
  .node 0 none [] none [.node 1 (some "c") [⟨"e"⟩] none []]

/-- ViewNode-tree construction on the fixture AST. -/
def mirrorsDemoOut : Except Err NTree × St :=
  Compiler.getViewNodes (some specBindingBuilder) mirrorsDemoAst St.empty

/-- The ViewNode tree built from the fixture AST. -/
def mirrorsDemoTree : NTree := .node 0 [.node 1 []]

/-- Store fixture for a recursive (grafting) compile call: one existing
ViewNode carrying selector `child` and one existing (parent) ViewRef. -/
def graftSt : St :=
  ⟨[⟨10, some "child", [], none⟩], [⟨⟨"app", "appT", 0⟩, .node 0 [], some 0, true⟩], []⟩

/-- A recursive compile call grafting a `child` ViewRef under parent ref 0,
hosted on node 0. -/
def graftOut : Except Err VTree × St :=
  Compiler.compileViewRef demoCompiler 10 (some ⟨"child", "childT"⟩) 10
    (some (.node 0 [])) (some 0) (some 0) graftSt

/-- The View Reference tree returned by the recursive (grafting) compile
call: the `child` ViewRef (id 1) grafted under the parent ViewRef (id 0). -/
def graftTree : VTree := .node 0 [.node 1 []]

/-! ### Generic helper lemmas: id ranges, trees, trace precedence -/

theorem mem_idRange {x s n : Nat} : x ∈ idRange s n ↔ s ≤ x ∧ x < s + n := by
  induction n generalizing s with
  | zero => simp [idRange]
  | succ n ih =>
      simp [idRange, ih]
      omega

theorem idRange_append (s m n : Nat) :
    idRange s m ++ idRange (s + m) n = idRange s (m + n) := by
  induction m generalizing s with
  | zero => simp [idRange]
  | succ m ih =>
      simp only [idRange, List.cons_append]
      rw [show s + (m + 1) = (s + 1) + m by omega, ih,
        show m + 1 + n = (m + n) + 1 by omega]
      rfl

theorem idRange_length (s n : Nat) : (idRange s n).length = n := by
  induction n generalizing s with
  | zero => rfl
  | succ n ih => simp [idRange, ih]

namespace RTree

@[simp] theorem preorder_node (a : α) (ts : List (RTree α)) :
    (RTree.node a ts).preorder = a :: preorderList ts := by
  rw [preorder]

@[simp] theorem preorderList_nil : preorderList ([] : List (RTree α)) = [] := by
  rw [preorderList]

@[simp] theorem preorderList_cons (t : RTree α) (ts : List (RTree α)) :
    preorderList (t :: ts) = t.preorder ++ preorderList ts := by
  rw [preorderList]

@[simp] theorem size_node (a : α) (ts : List (RTree α)) :
    (RTree.node a ts).size = 1 + sizeList ts := by
  rw [size]

@[simp] theorem sizeList_nil : sizeList ([] : List (RTree α)) = 0 := by
  rw [sizeList]

@[simp] theorem sizeList_cons (t : RTree α) (ts : List (RTree α)) :
    sizeList (t :: ts) = t.size + sizeList ts := by
  rw [sizeList]

theorem sizeList_append (l₁ l₂ : List (RTree α)) :
    sizeList (l₁ ++ l₂) = sizeList l₁ + sizeList l₂ := by
  induction l₁ with
  | nil => simp
  | cons t ts ih => simp [ih]; omega

theorem size_pos (t : RTree α) : 1 ≤ t.size := by
  cases t with
  | node a ts => simp

theorem mem_preorderList {x : α} {l : List (RTree α)} :
    x ∈ preorderList l ↔ ∃ t ∈ l, x ∈ t.preorder := by
  induction l with
  | nil => simp
  | cons t ts ih => simp [ih]

theorem preorder_eq_root_cons (t : RTree α) :
    t.preorder = t.rootData :: preorderList t.childrenOf := by
  cases t with
  | node a ts => simp [rootData, childrenOf]

theorem sizeList_flatMap_children (l : List (RTree α)) :
    sizeList (l.flatMap childrenOf) + l.length = sizeList l := by
  induction l with
  | nil => simp
  | cons t ts ih =>
      cases t with
      | node a cs =>
          simp only [List.flatMap_cons, sizeList_append, sizeList_cons, childrenOf,
            List.length_cons, size_node]
          omega

theorem size_le_sizeList_of_mem {t : RTree α} {l : List (RTree α)} (h : t ∈ l) :
    t.size ≤ sizeList l := by
  induction l with
  | nil => simp at h
  | cons u us ih =>
      rcases List.mem_cons.mp h with rfl | h
      · simp
      · have := ih h
        simp
        omega

theorem mem_bfsAux {x : α} :
    ∀ (fuel : Nat) (ts : List (RTree α)), sizeList ts ≤ fuel →
      (∃ t ∈ ts, x ∈ t.preorder) → x ∈ bfsAux fuel ts := by
  intro fuel
  induction fuel with
  | zero =>
      intro ts hsz ⟨t, ht, _⟩
      exfalso
      have h1 : 1 ≤ t.size := size_pos t
      have h2 : t.size ≤ sizeList ts := size_le_sizeList_of_mem ht
      omega
  | succ fuel ih =>
      intro ts hsz ⟨t, ht, hx⟩
      cases ts with
      | nil => simp at ht
      | cons u us =>
          rw [bfsAux]
          rcases (by rw [preorder_eq_root_cons] at hx; simpa using hx :
              x = t.rootData ∨ x ∈ preorderList t.childrenOf) with hroot | hrest
          · exact List.mem_append_left _ (hroot ▸ List.mem_map_of_mem rootData ht)
          · refine List.mem_append_right _ (ih _ ?_ ?_)
            · have := sizeList_flatMap_children (u :: us)
              simp only [List.length_cons] at this
              omega
            · rcases mem_preorderList.mp hrest with ⟨c, hc, hxc⟩
              exact ⟨c, List.mem_flatMap.mpr ⟨t, ht, hc⟩, hxc⟩

/-- Breadth-first traversal visits every node of the tree. -/
theorem mem_bfs_of_mem_preorder {x : α} {t : RTree α} (h : x ∈ t.preorder) :
    x ∈ t.bfs :=
  mem_bfsAux t.size [t] (by simp) ⟨t, by simp, h⟩

end RTree

theorem PrecedesL.append_left {l : List Ev} {a b : Ev} (h : PrecedesL l a b)
    (l₀ : List Ev) : PrecedesL (l₀ ++ l) a b := by
  obtain ⟨i, j, hij, ha, hb⟩ := h
  refine ⟨l₀.length + i, l₀.length + j, by omega, ?_, ?_⟩
  · rw [List.getElem?_append_right (by omega)]
    simpa using ha
  · rw [List.getElem?_append_right (by omega)]
    simpa using hb

theorem PrecedesL.append_right {l : List Ev} {a b : Ev} (h : PrecedesL l a b)
    (l₁ : List Ev) : PrecedesL (l ++ l₁) a b := by
  obtain ⟨i, j, hij, ha, hb⟩ := h
  have hj : j < l.length := by
    by_contra hc
    rw [List.getElem?_eq_none (by omega)] at hb
    exact Option.noConfusion hb
  exact ⟨i, j, hij, by rw [List.getElem?_append_left (by omega)]; exact ha,
    by rw [List.getElem?_append_left hj]; exact hb⟩

theorem PrecedesL.of_mem_mem {l₁ l₂ : List Ev} {a b : Ev}
    (ha : a ∈ l₁) (hb : b ∈ l₂) : PrecedesL (l₁ ++ l₂) a b := by
  obtain ⟨i, hi⟩ := List.mem_iff_getElem?.mp ha
  obtain ⟨j, hj⟩ := List.mem_iff_getElem?.mp hb
  have hi' : i < l₁.length := by
    by_contra hc
    rw [List.getElem?_eq_none (by omega)] at hi
    exact Option.noConfusion hi
  refine ⟨i, l₁.length + j, by omega, ?_, ?_⟩
  · rw [List.getElem?_append_left hi']; exact hi
  · rw [List.getElem?_append_right (by omega)]; simpa using hj

theorem two_le_count_of_getElem? {l : List Ev} {a : Ev} {i j : Nat}
    (hij : i < j) (hi : l[i]? = some a) (hj : l[j]? = some a) : 2 ≤ l.count a := by
  induction l generalizing i j with
  | nil => simp at hi
  | cons b t ih =>
      cases i with
      | zero =>
          cases j with
          | zero => omega
          | succ j' =>
              simp only [List.getElem?_cons_zero, Option.some.injEq] at hi
              simp only [List.getElem?_cons_succ] at hj
              have hmem : a ∈ t := List.mem_iff_getElem?.mpr ⟨j', hj⟩
              have h1 : 1 ≤ t.count a := List.one_le_count_iff.mpr hmem
              rw [hi, List.count_cons_self]
              omega
      | succ i' =>
          cases j with
          | zero => omega
          | succ j' =>
              simp only [List.getElem?_cons_succ] at hi hj
              have h2 := ih (by omega) hi hj
              by_cases hba : b = a
              · subst hba
                rw [List.count_cons_self]
                omega
              · rw [List.count_cons_of_ne (fun h => hba h.symm)]
                omega

theorem PrecedesL.trans_count {l : List Ev} {a b c : Ev} (hab : PrecedesL l a b)
    (hbc : PrecedesL l b c) (hcount : l.count b = 1) : PrecedesL l a c := by
  obtain ⟨i, j, hij, ha, hb⟩ := hab
  obtain ⟨i', j', hij', hb', hc⟩ := hbc
  have hji' : j = i' := by
    by_contra hne
    rcases Nat.lt_or_ge j i' with hlt | hge
    · have := two_le_count_of_getElem? hlt hb hb'
      omega
    · have hlt : i' < j := by omega
      have := two_le_count_of_getElem? hlt hb' hb
      omega
  exact ⟨i, j', by omega, ha, hc⟩

theorem PrecedesL.mem_left {l : List Ev} {a b : Ev} (h : PrecedesL l a b) : a ∈ l := by
  obtain ⟨i, _, _, ha, _⟩ := h
  exact List.mem_iff_getElem?.mpr ⟨i, ha⟩

theorem PrecedesL.mem_right {l : List Ev} {a b : Ev} (h : PrecedesL l a b) : b ∈ l := by
  obtain ⟨_, j, _, _, hb⟩ := h
  exact List.mem_iff_getElem?.mpr ⟨j, hb⟩

theorem precedesL_concat_of_mem {l : List Ev} {a b : Ev} (ha : a ∈ l) :
    PrecedesL (l ++ [b]) a b :=
  PrecedesL.of_mem_mem ha (by simp)

end Branjs

namespace Branjs

/-! ### Compilation without a binding builder -/

mutual

theorem getViewNodes_none_ok (ast : TemplateAST) :
    ∀ st : St, ast.hasBindingNode = false →
      ∃ t st2, Compiler.getViewNodes none ast st = (.ok t, st2) := by
  cases ast with
  | node el sel bnds dir children =>
      intro st h
      rw [TemplateAST.hasBindingNode] at h
      simp only [Bool.or_eq_false_iff, Bool.not_eq_false'] at h
      obtain ⟨hb, hc⟩ := h
      have hbnil : bnds = [] := List.isEmpty_iff.mp hb
      subst hbnil
      obtain ⟨ts, st2, heq⟩ := getViewNodesList_none_ok children
        { st with nodes := st.nodes ++ [⟨el, sel, [], none⟩] } hc
      refine ⟨.node st.nodes.length ts, st2, ?_⟩
      rw [Compiler.getViewNodes, Compiler.buildViewNode, St.allocNode]
      simp only [heq]

theorem getViewNodesList_none_ok (asts : List TemplateAST) :
    ∀ st : St, TemplateAST.hasBindingNodeList asts = false →
      ∃ ts st2, Compiler.getViewNodesList none asts st = (.ok ts, st2) := by
  cases asts with
  | nil =>
      intro st _
      exact ⟨[], st, rfl⟩
  | cons a rest =>
      intro st h
      rw [TemplateAST.hasBindingNodeList] at h
      simp only [Bool.or_eq_false_iff] at h
      obtain ⟨ha, hr⟩ := h
      obtain ⟨t, st2, heq⟩ := getViewNodes_none_ok a st ha
      obtain ⟨ts, st3, heq2⟩ := getViewNodesList_none_ok rest st2 hr
      refine ⟨t :: ts, st3, ?_⟩
      rw [Compiler.getViewNodesList]
      simp only [heq, heq2]

end

mutual

theorem getViewNodes_none_err (ast : TemplateAST) :
    ∀ st : St, ast.hasBindingNode = true →
      ∃ st2, Compiler.getViewNodes none ast st = (.error .typeError, st2) := by
  cases ast with
  | node el sel bnds dir children =>
      intro st h
      rw [TemplateAST.hasBindingNode] at h
      rcases Bool.or_eq_true_iff.mp h with hb | hc
      · have : ¬ bnds.isEmpty := by simpa using hb
        cases bnds with
        | nil => simp [List.isEmpty_nil] at this
        | cons rb rbs =>
            refine ⟨{ st with nodes := st.nodes ++ [⟨el, sel, [], none⟩] }, ?_⟩
            rw [Compiler.getViewNodes, Compiler.buildViewNode, St.allocNode]
      · rcases hbnds : bnds with _ | ⟨rb, rbs⟩
        · obtain ⟨st2, heq⟩ := getViewNodesList_none_err children
            { st with nodes := st.nodes ++ [⟨el, sel, [], none⟩] } hc
          refine ⟨st2, ?_⟩
          rw [Compiler.getViewNodes, Compiler.buildViewNode, St.allocNode]
          simp only [heq]
        · refine ⟨{ st with nodes := st.nodes ++ [⟨el, sel, [], none⟩] }, ?_⟩
          rw [Compiler.getViewNodes, Compiler.buildViewNode, St.allocNode]

theorem getViewNodesList_none_err (asts : List TemplateAST) :
    ∀ st : St, TemplateAST.hasBindingNodeList asts = true →
      ∃ st2, Compiler.getViewNodesList none asts st = (.error .typeError, st2) := by
  cases asts with
  | nil =>
      intro st h
      rw [TemplateAST.hasBindingNodeList] at h
      exact absurd h (by simp)
  | cons a rest =>
      intro st h
      rw [TemplateAST.hasBindingNodeList] at h
      rcases ha : a.hasBindingNode with _ | _
      · have hr : TemplateAST.hasBindingNodeList rest = true := by
          rw [ha] at h
          simpa using h
        obtain ⟨t, st2, heq⟩ := getViewNodes_none_ok a st (by simpa using ha)
        obtain ⟨st3, heq2⟩ := getViewNodesList_none_err rest st2 hr
        refine ⟨st3, ?_⟩
        rw [Compiler.getViewNodesList]
        simp only [heq, heq2]
      · obtain ⟨st2, heq⟩ := getViewNodes_none_err a st ha
        refine ⟨st2, ?_⟩
        rw [Compiler.getViewNodesList]
        simp only [heq]

end

end Branjs

namespace Branjs

/-! ### Singleton behaviour of getInstance (claim C10) -/

theorem Compiler.getInstance_cached (c : Compiler) (p : Parser) (f : ComponentFactory)
    (r : ComponentsRegistry) (b : Option BindingBuilder) :
    Compiler.getInstance (some c) p f r b = (c, some c) := rfl

theorem Compiler.runGetInstances_cached (c : Compiler)
    (l : List (Parser × ComponentFactory × ComponentsRegistry × Option BindingBuilder)) :
    Compiler.runGetInstances (some c) l = List.replicate l.length c := by
  induction l with
  | nil => rfl
  | cons a rest ih =>
      obtain ⟨p, f, r, bb⟩ := a
      simp [Compiler.runGetInstances, Compiler.getInstance, ih, List.replicate_succ]

theorem View.getInstance_some (v : View) (ci : Option Compiler)
    (r : ComponentsRegistry) (p : Parser) :
    View.getInstance (some v) ci r p = (v, some v, ci) := rfl

theorem View.runGetInstances_some (v : View) (ci : Option Compiler)
    (l : List (ComponentsRegistry × Parser)) :
    View.runGetInstances (some v) ci l = List.replicate l.length v := by
  induction l generalizing ci with
  | nil => rfl
  | cons a rest ih =>
      obtain ⟨r, p⟩ := a
      simp [View.runGetInstances, View.getInstance, ih, List.replicate_succ]

/-- Claim C10: View.getInstance and Compiler.getInstance are idempotent
singletons — in any sequence of calls starting from an empty singleton cell,
with arbitrary arguments for each call, every call returns the instance the
first call created; the later calls' arguments have no effect. -/
theorem claim_getInstance_idempotent_singletons
    (a : Parser × ComponentFactory × ComponentsRegistry × Option BindingBuilder)
    (as : List (Parser × ComponentFactory × ComponentsRegistry × Option BindingBuilder))
    (b : ComponentsRegistry × Parser) (bs : List (ComponentsRegistry × Parser))
    (ci : Option Compiler) :
    (∀ c ∈ Compiler.runGetInstances none (a :: as),
        c = (Compiler.getInstance none a.1 a.2.1 a.2.2.1 a.2.2.2).1) ∧
    (∀ v ∈ View.runGetInstances none ci (b :: bs),
        v = (View.getInstance none ci b.1 b.2).1) := by
  obtain ⟨p, f, r, bb⟩ := a
  obtain ⟨reg, pr⟩ := b
  constructor
  · intro c hc
    rw [Compiler.runGetInstances] at hc
    rw [show (Compiler.getInstance none p f r bb).2 =
        some (Compiler.getInstance none p f r bb).1 from rfl,
      Compiler.runGetInstances_cached] at hc
    rcases List.mem_cons.mp hc with rfl | hc
    · rfl
    · exact List.eq_of_mem_replicate hc
  · intro v hv
    rw [View.runGetInstances] at hv
    rw [show (View.getInstance none ci reg pr).2.1 =
        some (View.getInstance none ci reg pr).1 from rfl,
      View.runGetInstances_some] at hv
    rcases List.mem_cons.mp hv with rfl | hv
    · rfl
    · exact List.eq_of_mem_replicate hv

/-- Witness for C10: a concrete second call with different arguments returns
the first call's instance, for both singletons. -/
theorem claim_getInstance_idempotent_singletons_witness :
    (Compiler.getInstance (Compiler.getInstance none demoParser ⟨()⟩ demoRegistry none).2
        missParser ⟨()⟩ missRegistry (some specBindingBuilder)).1 =
      (Compiler.getInstance none demoParser ⟨()⟩ demoRegistry none).1 ∧
    (View.getInstance (View.getInstance none none demoRegistry demoParser).2.1
        (View.getInstance none none demoRegistry demoParser).2.2 missRegistry missParser).1 =
      (View.getInstance none none demoRegistry demoParser).1 := by
  constructor
  · exact (claim_getInstance_idempotent_singletons
      ⟨demoParser, ⟨()⟩, demoRegistry, none⟩
      [⟨missParser, ⟨()⟩, missRegistry, some specBindingBuilder⟩]
      ⟨demoRegistry, demoParser⟩ [] none).1 _
      (by rw [Compiler.runGetInstances, Compiler.runGetInstances,
        Compiler.runGetInstances]; exact List.mem_cons_of_mem _ (List.mem_singleton.mpr rfl))
  · refine (claim_getInstance_idempotent_singletons
      ⟨demoParser, ⟨()⟩, demoRegistry, none⟩ []
      ⟨demoRegistry, demoParser⟩ [⟨missRegistry, missParser⟩] none).2 _ ?_
    rw [View.runGetInstances, View.runGetInstances, View.runGetInstances]
    exact List.mem_cons_of_mem _ (List.mem_singleton.mpr rfl)

/-! ### Bootstrap with no entry component (claim C8) -/

/-- Claim C8: if the registry has no entry component, View.bootstrap fails
with EntryComponentNotRegisteredError and returns the store unchanged — in
particular the trace gains no event, so the Compiler is never invoked and no
View Reference tree is produced. -/
theorem claim_bootstrap_entry_missing (v : View) (fuel : Nat) (host : Nat)
    (st : St) (h : v.componentsRegistry.getEntryComponent = none) :
    v.bootstrap fuel host st = (.error .entryComponentNotRegistered, st) := by
  rw [View.bootstrap, h]
  rfl

/-- Witness for C8: a concrete view whose registry lacks an entry component. -/
theorem claim_bootstrap_entry_missing_witness :
    entrylessView.bootstrap 5 0 St.empty = (.error .entryComponentNotRegistered, St.empty) :=
  claim_bootstrap_entry_missing entrylessView 5 0 St.empty rfl

/-! ### Registry miss during compilation (claim C1) -/

/-- Claim C1 (evaluation of the code at the failing input): compiling the
registered entry component `app` whose template references the unregistered
selector `missing` does NOT signal UnknownComponentError.  The compiler's
child-discovery loop resolves the selector (the resolveChild event), obtains
`undefined` from the registry and passes it straight to
ComponentFactory.create (the factoryCreate-with-none event); the run dies
with a TypeError from dereferencing `undefined`.  No code path of the
compiler source produces `Err.unknownComponent`. -/
theorem claim_registry_miss_no_unknown_component_error :
    (missCompiler.compile 10 ⟨"app", "appT"⟩ 0 St.empty).1 = .error .typeError ∧
    Ev.resolveChild 1 "missing" ∈ (missCompiler.compile 10 ⟨"app", "appT"⟩ 0 St.empty).2.trace ∧
    Ev.factoryCreate none 10 ∈ (missCompiler.compile 10 ⟨"app", "appT"⟩ 0 St.empty).2.trace :=
  ⟨rfl, by decide, by decide⟩

/-! ### Compilation through the View's compiler dereferences the missing binding builder (claim C2) -/

/-- Claim C2: the View orchestrator constructs its Compiler passing only the
parser, component factory and registry — the binding-builder argument is
omitted (`none`).  Consequently, compiling any component whose parsed
Template AST contains at least one node with a raw binding fails with a
TypeError (dereference of the undefined builder in _buildViewNode) instead
of producing a ViewNode tree with live Bindings. -/
theorem claim_view_compiler_missing_binding_builder
    (reg : ComponentsRegistry) (p : Parser) (comp : Component) (host : Nat)
    (fuel : Nat) (st : St) (hfuel : 0 < fuel)
    (hbind : (p.parse comp.template host).hasBindingNode = true) :
    (View.construct none reg p).1.compiler.bindingBuilder = none ∧
    ((View.construct none reg p).1.compiler.compile fuel comp host st).1 =
      .error .typeError := by
  have hc : (View.construct none reg p).1.compiler = ⟨p, ⟨()⟩, reg, none⟩ := rfl
  refine ⟨by rw [hc], ?_⟩
  rw [hc]
  obtain ⟨f, rfl⟩ : ∃ f, fuel = f + 1 := ⟨fuel - 1, by omega⟩
  obtain ⟨st2, herr⟩ := getViewNodes_none_err (p.parse comp.template host)
    (st.pushEv (.factoryCreate (some comp) host)) hbind
  rw [Compiler.compile, Compiler.compileViewRef]
  simp only [ComponentFactory.create, herr]

/-- Witness for C2: the demo registry and parser; the template of `app`
contains a node with a raw binding, so the View-created compiler fails on
it. -/
theorem claim_view_compiler_missing_binding_builder_witness :
    (View.construct none demoRegistry demoParser).1.compiler.bindingBuilder = none ∧
    ((View.construct none demoRegistry demoParser).1.compiler.compile 10
        ⟨"app", "appT"⟩ 0 St.empty).1 = .error .typeError :=
  claim_view_compiler_missing_binding_builder demoRegistry demoParser
    ⟨"app", "appT"⟩ 0 10 St.empty (by omega) (by decide)

end Branjs

namespace Branjs

/-! ### Specification of the AST-to-ViewNode-tree transform -/

theorem getElem?_set_of_lt {α : Type} (l : List α) (i : Nat) (a : α)
    (h : i < l.length) : (l.set i a)[i]? = some a := by
  simp [List.getElem?_set_self', List.getElem?_eq_getElem h]

theorem buildViewNode_spec {bb : Option BindingBuilder} {el : Nat}
    {sel : Option String} {bnds : List RawBinding} {st : St} {nid : Nat} {st1 : St}
    (h : Compiler.buildViewNode bb el sel bnds st = (.ok nid, st1)) :
    nid = st.nodes.length ∧ st1.refs = st.refs ∧ st1.trace = st.trace ∧
    st1.nodes.length = st.nodes.length + 1 ∧
    (∀ i, i < st.nodes.length → st1.nodes[i]? = st.nodes[i]?) ∧
    (∃ nd, st1.nodes[nid]? = some nd ∧ nd.componentSelector = sel ∧
      nd.element = el ∧ nd.viewRef = none) ∧
    (∀ builder, bb = some builder →
      st1.nodes[nid]? =
        some ⟨el, sel, bnds.map (fun rb => builder.build rb nid), none⟩) := by
  rw [Compiler.buildViewNode, St.allocNode] at h
  cases bnds with
  | nil =>
      injection h with h1 h2
      injection h1 with h1
      subst h1
      subst h2
      refine ⟨rfl, rfl, rfl, by simp, ?_, ?_, ?_⟩
      · intro i hi
        exact List.getElem?_append_left hi
      · exact ⟨⟨el, sel, [], none⟩, by simp, rfl, rfl, rfl⟩
      · intro builder _
        simp
  | cons rb rbs =>
      cases bb with
      | none => exact absurd h (by simp)
      | some builder =>
          simp only [] at h
          rw [St.setNodeBindings.eq_def] at h
          have hcc : (st.nodes ++ [(⟨el, sel, [], none⟩ : ViewNodeData)])[st.nodes.length]? =
              some ⟨el, sel, [], none⟩ := by simp
          rw [hcc] at h
          injection h with h1 h2
          injection h1 with h1
          subst h1
          subst h2
          refine ⟨rfl, rfl, rfl, by simp, ?_, ?_, ?_⟩
          · intro i hi
            rw [List.getElem?_set_ne (by omega : st.nodes.length ≠ i),
              List.getElem?_append_left hi]
          · refine ⟨_, getElem?_set_of_lt _ _ _ (by simp), rfl, rfl, rfl⟩
          · intro b2 hb2
            obtain rfl : builder = b2 := Option.some.inj hb2
            exact getElem?_set_of_lt _ _ _ (by simp)

end Branjs

namespace Branjs

mutual

theorem getViewNodes_spec (bb : Option BindingBuilder) (ast : TemplateAST) :
    ∀ st t st', Compiler.getViewNodes bb ast st = (.ok t, st') →
      st'.refs = st.refs ∧ st'.trace = st.trace ∧
      t.rootData = st.nodes.length ∧
      st'.nodes.length = st.nodes.length + t.preorder.length ∧
      t.preorder = idRange st.nodes.length t.preorder.length ∧
      (∀ i, i < st.nodes.length → st'.nodes[i]? = st.nodes[i]?) ∧
      (∀ i nd, st.nodes.length ≤ i → st'.nodes[i]? = some nd → nd.viewRef = none) ∧
      (∃ nd, st'.nodes[st.nodes.length]? = some nd ∧
        nd.componentSelector = ast.componentSelector ∧ nd.element = ast.element) := by
  cases ast with
  | node el sel bnds dir children =>
    intro st t st' h
    rw [Compiler.getViewNodes] at h
    rcases hbv : Compiler.buildViewNode bb el sel bnds st with ⟨res1, stA⟩
    rw [hbv] at h
    cases res1 with
    | error e => exact absurd h (by simp)
    | ok nid =>
      simp only [] at h
      rcases hgl : Compiler.getViewNodesList bb children stA with ⟨res2, stB⟩
      rw [hgl] at h
      cases res2 with
      | error e => exact absurd h (by simp)
      | ok ts =>
        simp only [] at h
        injection h with h1 h2
        injection h1 with h1
        subst h1
        subst h2
        obtain ⟨hnid, hArefs, hAtrace, hAlen, hAframe, ⟨nd0, hnd0, hnd0sel, hnd0el, hnd0vr⟩,
          _hbuilder⟩ := buildViewNode_spec hbv
        subst hnid
        obtain ⟨hBrefs, hBtrace, hBlen, hBpre, hBframe, hBvr⟩ :=
          getViewNodesList_spec bb children stA ts stB hgl
        have hlenA : stA.nodes.length = st.nodes.length + 1 := hAlen
        refine ⟨hBrefs.trans hArefs, hBtrace.trans hAtrace, by simp [RTree.rootData], ?_, ?_,
          ?_, ?_, ?_⟩
        · simp only [RTree.preorder_node, List.length_cons]
          omega
        · simp only [RTree.preorder_node, List.length_cons]
          rw [show idRange st.nodes.length ((RTree.preorderList ts).length + 1) =
            st.nodes.length :: idRange (st.nodes.length + 1) (RTree.preorderList ts).length
            from rfl]
          rw [← hlenA, ← hBpre]
        · intro i hi
          rw [hBframe i (by omega), hAframe i hi]
        · intro i nd hge hsome
          rcases Nat.lt_or_ge i stA.nodes.length with hlt | hge2
          · have hieq : i = st.nodes.length := by omega
            subst hieq
            rw [hBframe _ hlt, hnd0] at hsome
            cases hsome
            exact hnd0vr
          · exact hBvr i nd hge2 hsome
        · refine ⟨nd0, ?_, ?_, ?_⟩
          · rw [hBframe _ (by omega), hnd0]
          · simpa [TemplateAST.componentSelector] using hnd0sel
          · simpa [TemplateAST.element] using hnd0el

theorem getViewNodesList_spec (bb : Option BindingBuilder) (asts : List TemplateAST) :
    ∀ st ts st', Compiler.getViewNodesList bb asts st = (.ok ts, st') →
      st'.refs = st.refs ∧ st'.trace = st.trace ∧
      st'.nodes.length = st.nodes.length + (RTree.preorderList ts).length ∧
      RTree.preorderList ts = idRange st.nodes.length (RTree.preorderList ts).length ∧
      (∀ i, i < st.nodes.length → st'.nodes[i]? = st.nodes[i]?) ∧
      (∀ i nd, st.nodes.length ≤ i → st'.nodes[i]? = some nd → nd.viewRef = none) := by
  cases asts with
  | nil =>
      intro st ts st' h
      rw [Compiler.getViewNodesList] at h
      injection h with h1 h2
      injection h1 with h1
      subst h1
      subst h2
      refine ⟨rfl, rfl, by simp, by simp [idRange], fun i _ => rfl, ?_⟩
      intro i nd hge hsome
      rw [List.getElem?_eq_none (by omega)] at hsome
      exact Option.noConfusion hsome
  | cons a rest =>
      intro st ts st' h
      rw [Compiler.getViewNodesList] at h
      rcases hga : Compiler.getViewNodes bb a st with ⟨res1, stA⟩
      rw [hga] at h
      cases res1 with
      | error e => exact absurd h (by simp)
      | ok t1 =>
        simp only [] at h
        rcases hgr : Compiler.getViewNodesList bb rest stA with ⟨res2, stB⟩
        rw [hgr] at h
        cases res2 with
        | error e => exact absurd h (by simp)
        | ok ts1 =>
          simp only [] at h
          injection h with h1 h2
          injection h1 with h1
          subst h1
          subst h2
          obtain ⟨hArefs, hAtrace, _hAroot, hAlen, hApre, hAframe, hAvr, _hAroot2⟩ :=
            getViewNodes_spec bb a st t1 stA hga
          obtain ⟨hBrefs, hBtrace, hBlen, hBpre, hBframe, hBvr⟩ :=
            getViewNodesList_spec bb rest stA ts1 stB hgr
          refine ⟨hBrefs.trans hArefs, hBtrace.trans hAtrace, ?_, ?_, ?_, ?_⟩
          · simp only [RTree.preorderList_cons, List.length_append]
            omega
          · simp only [RTree.preorderList_cons, List.length_append]
            rw [← idRange_append st.nodes.length t1.preorder.length
              (RTree.preorderList ts1).length]
            rw [← hApre]
            have : stA.nodes.length = st.nodes.length + t1.preorder.length := hAlen
            rw [← this, ← hBpre]
          · intro i hi
            rw [hBframe i (by omega), hAframe i hi]
          · intro i nd hge hsome
            rcases Nat.lt_or_ge i stA.nodes.length with hlt | hge2
            · rw [hBframe _ hlt] at hsome
              exact hAvr i nd hge hsome
            · exact hBvr i nd hge2 hsome

end

end Branjs

namespace Branjs

mutual

theorem getViewNodes_mirrors (b : BindingBuilder) (ast : TemplateAST) :
    ∀ st t st' st3, Compiler.getViewNodes (some b) ast st = (.ok t, st') →
      (∀ i, i < st'.nodes.length → st3.nodes[i]? = st'.nodes[i]?) →
      MirrorsAST b st3 t ast := by
  cases ast with
  | node el sel bnds dir children =>
    intro st t st' st3 h hext
    rw [Compiler.getViewNodes] at h
    rcases hbv : Compiler.buildViewNode (some b) el sel bnds st with ⟨res1, stA⟩
    rw [hbv] at h
    cases res1 with
    | error e => exact absurd h (by simp)
    | ok nid =>
      simp only [] at h
      rcases hgl : Compiler.getViewNodesList (some b) children stA with ⟨res2, stB⟩
      rw [hgl] at h
      cases res2 with
      | error e => exact absurd h (by simp)
      | ok ts =>
        simp only [] at h
        injection h with h1 h2
        injection h1 with h1
        subst h1
        subst h2
        obtain ⟨hnid, _, _, hAlen, _, _, hbuilder⟩ := buildViewNode_spec hbv
        obtain ⟨_, _, hBlen, _, hBframe, _⟩ :=
          getViewNodesList_spec (some b) children stA ts stB hgl
        have hrec := hbuilder b rfl
        have hnid2 : nid = st.nodes.length := hnid
        have hAlen2 : stA.nodes.length = st.nodes.length + 1 := hAlen
        have hnidlt : nid < stA.nodes.length := by
          rw [hnid2, hAlen2]
          exact Nat.lt_succ_self _
        have hlt2 : nid < stB.nodes.length := by
          rw [hBlen, hnid2, hAlen2]
          exact Nat.lt_of_lt_of_le (Nat.lt_succ_self _) (Nat.le_add_right _ _)
        have hget3 : st3.nodes[nid]? =
            some ⟨el, sel, bnds.map (fun rb => b.build rb nid), none⟩ := by
          rw [hext nid hlt2, hBframe nid hnidlt, hrec]
        exact MirrorsAST.node hget3 rfl rfl rfl
          (getViewNodesList_mirrors b children stA ts stB st3 hgl hext)

theorem getViewNodesList_mirrors (b : BindingBuilder) (asts : List TemplateAST) :
    ∀ st ts st' st3, Compiler.getViewNodesList (some b) asts st = (.ok ts, st') →
      (∀ i, i < st'.nodes.length → st3.nodes[i]? = st'.nodes[i]?) →
      List.Forall₂ (MirrorsAST b st3) ts asts := by
  cases asts with
  | nil =>
      intro st ts st' st3 h _
      rw [Compiler.getViewNodesList] at h
      injection h with h1 h2
      injection h1 with h1
      subst h1
      exact List.Forall₂.nil
  | cons a rest =>
      intro st ts st' st3 h hext
      rw [Compiler.getViewNodesList] at h
      rcases hga : Compiler.getViewNodes (some b) a st with ⟨res1, stA⟩
      rw [hga] at h
      cases res1 with
      | error e => exact absurd h (by simp)
      | ok t1 =>
        simp only [] at h
        rcases hgr : Compiler.getViewNodesList (some b) rest stA with ⟨res2, stB⟩
        rw [hgr] at h
        cases res2 with
        | error e => exact absurd h (by simp)
        | ok ts1 =>
          simp only [] at h
          injection h with h1 h2
          injection h1 with h1
          subst h1
          subst h2
          obtain ⟨_, _, hBlen, _, hBframe, _⟩ :=
            getViewNodesList_spec (some b) rest stA ts1 stB hgr
          refine List.Forall₂.cons ?_ ?_
          · refine getViewNodes_mirrors b a st t1 stA st3 hga ?_
            intro i hi
            rw [hext i (by omega), hBframe i hi]
          · exact getViewNodesList_mirrors b rest stA ts1 stB st3 hgr hext

end

/-- Claim C9: for every Template AST, the ViewNode tree the compiler builds
from it (given a binding builder) is a structure-preserving one-to-one image:
one ViewNode per AST node, the same parent/child relationships and
left-to-right sibling order, each ViewNode carrying its AST node's
componentSelector and element, and one live Binding built by the Binding
Builder (with that ViewNode as owner) per raw binding of the AST node. -/
theorem claim_view_node_tree_mirrors_ast (b : BindingBuilder) (ast : TemplateAST)
    (st : St) (t : NTree) (st' : St)
    (h : Compiler.getViewNodes (some b) ast st = (.ok t, st')) :
    MirrorsAST b st' t ast :=
  getViewNodes_mirrors b ast st t st' st' h (fun _ _ => rfl)

/-- Witness for C9: the fixture AST with a selector child and a raw binding. -/
theorem claim_view_node_tree_mirrors_ast_witness :
    MirrorsAST specBindingBuilder mirrorsDemoOut.2 mirrorsDemoTree mirrorsDemoAst :=
  claim_view_node_tree_mirrors_ast specBindingBuilder mirrorsDemoAst St.empty
    mirrorsDemoTree mirrorsDemoOut.2 (by rfl)

end Branjs

namespace Branjs

/-! ### Store operation lemmas -/

theorem setNodeViewRef_spec (st : St) (n : Nat) (r : Nat)
    (h : n < st.nodes.length) :
    (st.setNodeViewRef n r).refs = st.refs ∧
    (st.setNodeViewRef n r).trace = st.trace ∧
    (st.setNodeViewRef n r).nodes.length = st.nodes.length ∧
    (∀ i, i ≠ n → (st.setNodeViewRef n r).nodes[i]? = st.nodes[i]?) ∧
    (∃ nd : ViewNodeData, st.nodes[n]? = some nd ∧
      (st.setNodeViewRef n r).nodes[n]? = some { nd with viewRef := some r }) := by
  rcases hnd : st.nodes[n]? with _ | nd
  · rw [List.getElem?_eq_none_iff] at hnd
    omega
  · rw [St.setNodeViewRef, hnd]
    refine ⟨rfl, rfl, by simp, ?_, nd, rfl, ?_⟩
    · intro i hi
      exact List.getElem?_set_ne (fun hh => hi hh.symm)
    · exact getElem?_set_of_lt _ _ _ h

theorem setCompiled_spec (st : St) (r : Nat) (h : r < st.refs.length) :
    (st.setCompiled r).nodes = st.nodes ∧
    (st.setCompiled r).trace = st.trace ++ [.setCompiled r] ∧
    (st.setCompiled r).refs.length = st.refs.length ∧
    (∀ i, i ≠ r → (st.setCompiled r).refs[i]? = st.refs[i]?) ∧
    (∃ rd : ViewRefData, st.refs[r]? = some rd ∧
      (st.setCompiled r).refs[r]? = some { rd with compiled := true }) := by
  rcases hrd : st.refs[r]? with _ | rd
  · rw [List.getElem?_eq_none_iff] at hrd
    omega
  · rw [St.setCompiled, hrd]
    refine ⟨rfl, rfl, by simp, ?_, rd, rfl, ?_⟩
    · intro i hi
      exact List.getElem?_set_ne (fun hh => hi hh.symm)
    · exact getElem?_set_of_lt _ _ _ h

theorem updateRenderHost_spec (st : St) (r : Nat) (host : Nat)
    (h : r < st.refs.length) :
    (st.updateRenderHost r host).nodes = st.nodes ∧
    (st.updateRenderHost r host).trace = st.trace ∧
    (st.updateRenderHost r host).refs.length = st.refs.length ∧
    (∀ i, i ≠ r → (st.updateRenderHost r host).refs[i]? = st.refs[i]?) ∧
    (∃ rd : ViewRefData, st.refs[r]? = some rd ∧
      (st.updateRenderHost r host).refs[r]? = some { rd with renderHost := some host }) := by
  rcases hrd : st.refs[r]? with _ | rd
  · rw [List.getElem?_eq_none_iff] at hrd
    omega
  · rw [St.updateRenderHost, hrd]
    refine ⟨rfl, rfl, by simp, ?_, rd, rfl, ?_⟩
    · intro i hi
      exact List.getElem?_set_ne (fun hh => hi hh.symm)
    · exact getElem?_set_of_lt _ _ _ h

theorem RecStable.refl (st : St) : RecStable st st :=
  ⟨fun _ rd h => ⟨rd, h, rfl⟩, fun _ nd h => ⟨nd, h, rfl, rfl⟩⟩

theorem RecStable.trans {st1 st2 st3 : St} (h12 : RecStable st1 st2)
    (h23 : RecStable st2 st3) : RecStable st1 st3 := by
  refine ⟨?_, ?_⟩
  · intro i rd h
    obtain ⟨rd2, h2, htree⟩ := h12.1 i rd h
    obtain ⟨rd3, h3, htree2⟩ := h23.1 i rd2 h2
    exact ⟨rd3, h3, htree2.trans htree⟩
  · intro i nd h
    obtain ⟨nd2, h2, hsel, hel⟩ := h12.2 i nd h
    obtain ⟨nd3, h3, hsel2, hel2⟩ := h23.2 i nd2 h2
    exact ⟨nd3, h3, hsel2.trans hsel, hel2.trans hel⟩

theorem ResolveSoundProp.mono {st1 st2 : St} {Δ : List Ev}
    (h : ResolveSoundProp st1 Δ) (hs : RecStable st1 st2) :
    ResolveSoundProp st2 Δ := by
  intro nid sel hmem
  obtain ⟨r, rd, nd, hr, hmem2, hroot, hn, hsel⟩ := h nid sel hmem
  obtain ⟨rd2, hr2, htree⟩ := hs.1 r rd hr
  obtain ⟨nd2, hn2, hsel2, _⟩ := hs.2 nid nd hn
  exact ⟨r, rd2, nd2, hr2, htree ▸ hmem2, htree ▸ hroot, hn2, hsel2.trans hsel⟩

theorem ResolveSoundProp.append {st : St} {Δ1 Δ2 : List Ev}
    (h1 : ResolveSoundProp st Δ1) (h2 : ResolveSoundProp st Δ2) :
    ResolveSoundProp st (Δ1 ++ Δ2) := by
  intro nid sel hmem
  rcases List.mem_append.mp hmem with hm | hm
  · exact h1 nid sel hm
  · exact h2 nid sel hm

theorem ResolveSoundProp.nil (st : St) : ResolveSoundProp st [] := by
  intro nid sel hmem
  simp at hmem

end Branjs

namespace Branjs

theorem recStable_of_frames {st st2 : St}
    (h1 : ∀ i, i < st.refs.length → st2.refs[i]? = st.refs[i]?)
    (h2 : ∀ i, i < st.nodes.length → st2.nodes[i]? = st.nodes[i]?) :
    RecStable st st2 := by
  constructor
  · intro i rd hh
    have hi : i < st.refs.length := by
      by_contra hc
      rw [List.getElem?_eq_none (by omega)] at hh
      exact Option.noConfusion hh
    exact ⟨rd, (h1 i hi).trans hh, rfl⟩
  · intro i nd hh
    have hi : i < st.nodes.length := by
      by_contra hc
      rw [List.getElem?_eq_none (by omega)] at hh
      exact Option.noConfusion hh
    exact ⟨nd, (h2 i hi).trans hh, rfl, rfl⟩

theorem recStable_setNodeViewRef (st : St) (n r : Nat) :
    RecStable st (st.setNodeViewRef n r) := by
  rcases hnd : st.nodes[n]? with _ | m
  · rw [St.setNodeViewRef, hnd]
    exact RecStable.refl st
  · constructor
    · intro i rd hh
      rw [St.setNodeViewRef, hnd]
      exact ⟨rd, hh, rfl⟩
    · intro i nd hh
      rw [St.setNodeViewRef, hnd]
      by_cases hi : i = n
      · subst hi
        have hm : nd = m := by
          rw [hh] at hnd
          exact Option.some.inj hnd
        subst hm
        have hlt : i < st.nodes.length := by
          by_contra hc
          rw [List.getElem?_eq_none (by omega)] at hh
          exact Option.noConfusion hh
        exact ⟨{ nd with viewRef := some r }, getElem?_set_of_lt _ _ _ hlt, rfl, rfl⟩
      · rw [List.getElem?_set_ne (fun hh2 => hi hh2.symm)]
        exact ⟨nd, hh, rfl, rfl⟩

theorem recStable_setCompiled (st : St) (r : Nat) :
    RecStable st (st.setCompiled r) := by
  rcases hrd : st.refs[r]? with _ | m
  · rw [St.setCompiled, hrd]
    exact recStable_of_frames (fun i _ => rfl) (fun i _ => rfl)
  · constructor
    · intro i rd hh
      rw [St.setCompiled, hrd]
      by_cases hi : i = r
      · subst hi
        have hm : rd = m := by
          rw [hh] at hrd
          exact Option.some.inj hrd
        subst hm
        have hlt : i < st.refs.length := by
          by_contra hc
          rw [List.getElem?_eq_none (by omega)] at hh
          exact Option.noConfusion hh
        exact ⟨{ rd with compiled := true }, getElem?_set_of_lt _ _ _ hlt, rfl⟩
      · rw [List.getElem?_set_ne (fun hh2 => hi hh2.symm)]
        exact ⟨rd, hh, rfl⟩
    · intro i nd hh
      rw [St.setCompiled, hrd]
      exact ⟨nd, hh, rfl, rfl⟩

theorem recStable_updateRenderHost (st : St) (r host : Nat) :
    RecStable st (st.updateRenderHost r host) := by
  rcases hrd : st.refs[r]? with _ | m
  · rw [St.updateRenderHost, hrd]
    exact recStable_of_frames (fun i _ => rfl) (fun i _ => rfl)
  · constructor
    · intro i rd hh
      rw [St.updateRenderHost, hrd]
      by_cases hi : i = r
      · subst hi
        have hm : rd = m := by
          rw [hh] at hrd
          exact Option.some.inj hrd
        subst hm
        have hlt : i < st.refs.length := by
          by_contra hc
          rw [List.getElem?_eq_none (by omega)] at hh
          exact Option.noConfusion hh
        exact ⟨{ rd with renderHost := some host }, getElem?_set_of_lt _ _ _ hlt, rfl⟩
      · rw [List.getElem?_set_ne (fun hh2 => hi hh2.symm)]
        exact ⟨rd, hh, rfl⟩
    · intro i nd hh
      rw [St.updateRenderHost, hrd]
      exact ⟨nd, hh, rfl, rfl⟩

end Branjs

namespace Branjs

theorem vstmt_zero : VStmt 0 := by
  intro C component host vt pv hv st t' st' h _
  rw [Compiler.compileViewRef] at h
  exact absurd h (by simp)

theorem astmt_zero : AStmt 0 := by
  intro C refId nodesTree tree hv st t' st' h _ _ _ _
  rw [Compiler.compileAfterGraft] at h
  exact absurd h (by simp)

theorem cstmt_zero : CStmt 0 := by
  intro C nids tree P st t' st' h _ _
  rw [Compiler.compileChildren] at h
  exact absurd h (by simp)

theorem astmt_succ (fuel : Nat) (hC : CStmt fuel) : AStmt (fuel + 1) := by
  intro C refId nodesTree tree hv st t' st' h hlen hhv hnids hrd0pack
  obtain ⟨rd0, hrd0, hrd0tree, hrootnm⟩ := hrd0pack
  rw [Compiler.compileAfterGraft.eq_def] at h
  simp only [] at h
  set st1 := (match hv with
    | some nid => st.setNodeViewRef nid refId
    | none => st) with hst1
  have hF1 : st1.refs = st.refs := by
    cases hv with
    | none => rfl
    | some hnode =>
        exact (setNodeViewRef_spec st hnode refId (hhv hnode rfl).1).1
  have hF2 : st1.trace = st.trace := by
    cases hv with
    | none => rfl
    | some hnode =>
        exact (setNodeViewRef_spec st hnode refId (hhv hnode rfl).1).2.1
  have hF3 : st1.nodes.length = st.nodes.length := by
    cases hv with
    | none => rfl
    | some hnode =>
        exact (setNodeViewRef_spec st hnode refId (hhv hnode rfl).1).2.2.1
  have hF4 : ∀ i, i ∉ hv.toList → st1.nodes[i]? = st.nodes[i]? := by
    cases hv with
    | none => exact fun i _ => rfl
    | some hnode =>
        intro i hi
        have hi2 : i ≠ hnode := by simpa using hi
        exact (setNodeViewRef_spec st hnode refId (hhv hnode rfl).1).2.2.2.1 i hi2
  have hF5 : ∀ h0, hv = some h0 → ∃ nd : ViewNodeData, st.nodes[h0]? = some nd ∧
      st1.nodes[h0]? = some { nd with viewRef := some refId } := by
    intro h0 hh0
    subst hh0
    exact (setNodeViewRef_spec st h0 refId (hhv h0 rfl).1).2.2.2.2
  have hF6 : RecStable st st1 := by
    cases hv with
    | none => exact RecStable.refl st
    | some hnode => exact recStable_setNodeViewRef st hnode refId
  rcases hcc : Compiler.compileChildren C fuel nodesTree.nonRootPreorder tree refId st1
    with ⟨res, st2⟩
  rw [hcc] at h
  cases res with
  | error e => exact absurd h (by simp)
  | ok tree2 =>
    simp only [] at h
    injection h with h1 h2
    injection h1 with h1
    subst h1
    subst h2
    obtain ⟨k, hk_len, hk_frame, hk_core, hk_selT, Δc, hk_tr, hk_ds⟩ :=
      hC C nodesTree.nonRootPreorder tree refId st1 tree2 st2 hcc
        (fun nid hm => by rw [hF3]; exact hnids nid hm)
        ⟨rd0, by rw [hF1]; exact hrd0, by rw [hF1]; omega,
          fun nid hm => ⟨by rw [hrd0tree]; exact hm,
            by rw [hrd0tree]; exact fun heq => hrootnm (heq ▸ hm)⟩⟩
    have hreflen1 : st1.refs.length = st.refs.length := by rw [hF1]
    rw [hreflen1] at hk_ds
    have hrefIdlt2 : refId < st2.refs.length := by omega
    obtain ⟨hsc_nodes, hsc_trace, hsc_len, hsc_frame, rdX, hrdX, hrdX'⟩ :=
      setCompiled_spec st2 refId hrefIdlt2
    have hrdXeq : rdX = rd0 := by
      have h2 : st2.refs[refId]? = st1.refs[refId]? := hk_frame refId (by omega)
      rw [hrdX, hF1, hrd0] at h2
      exact Option.some.inj h2
    rw [hrdXeq] at hrdX'
    have hnotin_hv : ∀ i, i ∈ nodesTree.nonRootPreorder → i ∉ hv.toList := by
      intro i hm
      cases hv with
      | none => simp
      | some h0 =>
          have := (hhv h0 rfl).2
          simp
          intro hh
          subst hh
          exact this hm
    refine ⟨k, by omega, ?_, ?_, ?_, ?_, ?_, ?_⟩
    · intro i hi hne
      rw [hsc_frame i hne, hk_frame i (by omega), hF1]
    · exact ⟨rd0, hrd0, hrdX'⟩
    · constructor
      · omega
      · intro i rd hge hsome
        rw [hsc_frame i (by omega)] at hsome
        exact hk_core.refsNewCompiled i rd (by omega) hsome
      · rw [hsc_nodes]
        have := hk_core.nodesLen
        omega
      · intro i hi hnotin
        rw [List.mem_append] at hnotin
        push_neg at hnotin
        rw [hsc_nodes, hk_core.nodesFrame i (by omega) hnotin.2, hF4 i hnotin.1]
      · intro i hmem
        rcases List.mem_append.mp hmem with hm | hm
        · cases hv with
          | none => simp at hm
          | some h0 =>
              have hieq : i = h0 := by simpa using hm
              subst hieq
              obtain ⟨nd, hst, hset⟩ := hF5 i rfl
              refine ⟨nd, hst, Or.inr ⟨refId, ?_⟩⟩
              rw [hsc_nodes, hk_core.nodesFrame i (by
                  have := (hhv i rfl).1
                  omega) ((hhv i rfl).2), hset]
        · obtain ⟨nd1, hst1i, hdisj⟩ := hk_core.nodesTouched i hm
          have hfr : st1.nodes[i]? = st.nodes[i]? := hF4 i (hnotin_hv i hm)
          refine ⟨nd1, by rw [← hfr]; exact hst1i, ?_⟩
          rw [hsc_nodes]
          exact hdisj
      · intro i nd hge hsome
        rw [hsc_nodes] at hsome
        exact hk_core.nodesNewSel i nd (by omega) hsome
      · exact RecStable.trans (RecStable.trans hF6 hk_core.recStable)
          (recStable_setCompiled st2 refId)
    · intro h0 hh0
      obtain ⟨nd, hst, hset⟩ := hF5 h0 hh0
      refine ⟨nd, hst, ?_⟩
      subst hh0
      rw [hsc_nodes, hk_core.nodesFrame h0 (by
          have := (hhv h0 rfl).1
          omega) ((hhv h0 rfl).2), hset]
    · intro i hm nd hst hsel
      have hfr : st1.nodes[i]? = st.nodes[i]? := hF4 i (hnotin_hv i hm)
      obtain ⟨nd2, hst2, hvr⟩ := hk_selT i hm nd (by rw [hfr]; exact hst) hsel
      exact ⟨nd2, by rw [hsc_nodes]; exact hst2, hvr⟩
    · refine ⟨Δc ++ [.setCompiled refId], ?_, ?_, ?_, ?_, ?_, ?_, ?_⟩
      · rw [hsc_trace, hk_tr, hF2, List.append_assoc]
      · intro e he
        rcases List.mem_append.mp he with hm | hm
        · exact hk_ds.lifecycleFree e hm
        · have : e = Ev.setCompiled refId := by simpa using hm
          subst this
          rfl
      · rw [List.filterMap_append, hk_ds.createSeq]
        simp [Ev.createdId]
      · intro r
        rw [List.count_append, hk_ds.scCount r]
        by_cases hr : r = refId
        · subst hr
          rw [if_neg (by omega), if_pos (by omega), List.count_cons_self, List.count_nil]
        · have hc0 : List.count (Ev.setCompiled r) [Ev.setCompiled refId] = 0 := by
            rw [List.count_eq_zero]
            intro hmem
            have hreq : r = refId := by simpa using hmem
            exact hr hreq
          rw [hc0]
          by_cases hcond : st.refs.length ≤ r ∧ r < st.refs.length + k
          · rw [if_pos hcond, if_pos (by omega)]
          · rw [if_neg hcond, if_neg (by omega)]
      · intro r h1 h2
        exact (hk_ds.createBeforeSc r h1 h2).append_right _
      · simp [List.getLast?_concat]
      · refine ResolveSoundProp.append ?_ ?_
        · exact (hk_ds.resolveSound).mono (recStable_setCompiled st2 refId)
        · intro nid sel hmem
          simp at hmem

theorem viewRef_update_collapse (nd : ViewNodeData) (r r' : Option Nat) :
    ({ { nd with viewRef := r } with viewRef := r' } : ViewNodeData) =
      { nd with viewRef := r' } := rfl

theorem cstmt_succ (fuel : Nat) (hV : VStmt fuel) (hC : CStmt fuel) :
    CStmt (fuel + 1) := by
  intro C nids tree P st t' st' h hbound hP
  obtain ⟨rdP, hrdP, hPlt, hPmem⟩ := hP
  rw [Compiler.compileChildren.eq_def] at h
  simp only [] at h
  cases nids with
  | nil =>
      simp only [] at h
      injection h with h1 h2
      injection h1 with h1
      subst h1
      subst h2
      refine ⟨0, by omega, fun i _ => rfl, ?_, ?_, [], by simp, ?_⟩
      · refine ⟨Nat.le_refl _, ?_, Nat.le_refl _, fun i _ _ => rfl, ?_, ?_,
          RecStable.refl st⟩
        · intro i rd hge hsome
          rw [List.getElem?_eq_none (by omega)] at hsome
          exact Option.noConfusion hsome
        · intro i hmem
          simp at hmem
        · intro i nd hge hsome
          rw [List.getElem?_eq_none (by omega)] at hsome
          exact Option.noConfusion hsome
      · intro i hmem
        simp at hmem
      · refine ⟨?_, rfl, ?_, ?_, ResolveSoundProp.nil st⟩
        · intro e he
          simp at he
        · intro r
          rw [if_neg (by omega)]
          rfl
        · intro r h1 h2
          omega
  | cons nid rest =>
      simp only [] at h
      rcases hnd : st.nodes[nid]? with _ | nd
      · rw [hnd] at h
        exact absurd h (by simp)
      · rw [hnd] at h
        simp only [] at h
        cases hsel : nd.componentSelector with
        | none =>
            rw [hsel] at h
            simp only [] at h
            obtain ⟨k, hk_len, hk_frame, hk_core, hk_selT, Δc, hk_tr, hk_ds⟩ :=
              hC C rest tree P st t' st' h
                (fun n hm => hbound n (List.mem_cons_of_mem _ hm))
                ⟨rdP, hrdP, hPlt, fun n hm => hPmem n (List.mem_cons_of_mem _ hm)⟩
            refine ⟨k, hk_len, hk_frame, ?_, ?_, Δc, hk_tr, hk_ds⟩
            · refine ⟨hk_core.refsLen, hk_core.refsNewCompiled, hk_core.nodesLen,
                ?_, ?_, hk_core.nodesNewSel, hk_core.recStable⟩
              · intro i hi hnotin
                exact hk_core.nodesFrame i hi
                  (fun hm => hnotin (List.mem_cons_of_mem _ hm))
              · intro i hmem
                rcases List.mem_cons.mp hmem with hieq | hm
                · subst hieq
                  by_cases hir : i ∈ rest
                  · exact hk_core.nodesTouched i hir
                  · exact ⟨nd, hnd, Or.inl (by
                      rw [hk_core.nodesFrame i (by
                        have := hbound i (List.mem_cons_self i rest)
                        omega) hir, hnd])⟩
                · exact hk_core.nodesTouched i hm
            · intro i hmem nd0 hst0 hsel0
              rcases List.mem_cons.mp hmem with hieq | hm
              · subst hieq
                rw [hnd] at hst0
                have : nd0 = nd := Option.some.inj hst0.symm
                subst this
                rw [hsel] at hsel0
                exact absurd hsel0 (by simp)
              · exact hk_selT i hm nd0 hst0 hsel0
        | some sel =>
            rw [hsel] at h
            simp only [] at h
            rcases hcv : Compiler.compileViewRef C fuel
                (C.componentsRegistry.getBySelector sel) nd.element (some tree)
                (some P) (some nid)
                (st.pushEv (.resolveChild nid sel)) with ⟨res, st2⟩
            rw [hcv] at h
            cases res with
            | error e => exact absurd h (by simp)
            | ok treeV =>
              simp only [] at h
              have hnidlt : nid < st.nodes.length := by
                by_contra hc
                rw [List.getElem?_eq_none (by omega)] at hnd
                exact Option.noConfusion hnd
              obtain ⟨kV, hkV1, hV_len, hV_frame, hV_core, hV_hv, ΔV, hV_tr, hV_ds,
                hV_last⟩ := hV C (C.componentsRegistry.getBySelector sel) nd.element
                  (some tree) (some P) (some nid)
                  (st.pushEv (.resolveChild nid sel)) treeV st2 hcv
                  (fun h0 hh0 => by
                    injection hh0 with hh0
                    subst hh0
                    exact hnidlt)
              obtain ⟨nd1, hnd1, hnd1'⟩ := hV_hv nid rfl
              have hnd1eq : nd1 = nd := by
                have hb : st.nodes[nid]? = some nd1 := hnd1
                rw [hnd] at hb
                exact (Option.some.inj hb).symm
              have hst2P : st2.refs[P]? = some rdP := by
                rw [hV_frame P hPlt]
                exact hrdP
              obtain ⟨kC, hkC_len, hkC_frame, hkC_core, hkC_selT, ΔC, hkC_tr,
                hkC_ds⟩ := hC C rest treeV P st2 t' st' h
                  (fun n hm => by
                    have h1 := hbound n (List.mem_cons_of_mem _ hm)
                    have h2 := hV_core.nodesLen
                    simp only [St.pushEv] at h2
                    omega)
                  ⟨rdP, hst2P, by
                    have := hV_core.refsLen
                    simp only [St.pushEv] at this
                    omega,
                    fun n hm => hPmem n (List.mem_cons_of_mem _ hm)⟩
              have hpush_trace : (st.pushEv (.resolveChild nid sel)).trace =
                  st.trace ++ [.resolveChild nid sel] := rfl
              have hB1 : (st.pushEv (.resolveChild nid sel)).refs.length =
                  st.refs.length := rfl
              have hpush_refs : (st.pushEv (.resolveChild nid sel)).refs = st.refs := rfl
              rw [hB1] at hV_ds hV_len
              rw [hB1, hpush_refs] at hV_frame
              have hnd1'2 : st2.nodes[nid]? =
                  some { nd with viewRef := some st.refs.length } := by
                rw [← hnd1eq]
                exact hnd1'
              have hnlenV : st.nodes.length ≤ st2.nodes.length := hV_core.nodesLen
              have hnlenC : st2.nodes.length ≤ st'.nodes.length := hkC_core.nodesLen
              rw [hV_len] at hkC_ds
              have hnotin_single : ∀ i : Nat, i ≠ nid → i ∉ (some nid).toList := by
                intro i hi
                simp [hi]
              refine ⟨kV + kC, by omega, ?_, ?_, ?_,
                Ev.resolveChild nid sel :: (ΔV ++ ΔC), ?_, ?_⟩
              · intro i hi
                rw [hkC_frame i (by omega), hV_frame i (by omega)]
              · refine ⟨by omega, ?_, by omega, ?_, ?_, ?_, ?_⟩
                · intro i rd hge hsome
                  by_cases hi2 : i < st2.refs.length
                  · rw [hkC_frame i hi2] at hsome
                    exact hV_core.refsNewCompiled i rd (by exact hge) hsome
                  · exact hkC_core.refsNewCompiled i rd (by omega) hsome
                · intro i hi hnotin
                  have hnr : i ∉ rest := fun hm => hnotin (List.mem_cons_of_mem _ hm)
                  have hnn : i ≠ nid := fun hh => hnotin (hh ▸ List.mem_cons_self _ _)
                  rw [hkC_core.nodesFrame i (by omega) hnr]
                  exact hV_core.nodesFrame i (by exact hi) (hnotin_single i hnn)
                · intro i hmem
                  by_cases hir : i ∈ rest
                  · by_cases hin : i = nid
                    · subst hin
                      obtain ⟨ndm, hndm, hdisj⟩ := hkC_core.nodesTouched i hir
                      rw [hnd1'2] at hndm
                      have hndm_eq : ndm = { nd with viewRef := some st.refs.length } :=
                        (Option.some.inj hndm).symm
                      subst hndm_eq
                      refine ⟨nd, hnd, ?_⟩
                      rcases hdisj with hsame | ⟨r', hset⟩
                      · exact Or.inr ⟨st.refs.length, hsame⟩
                      · refine Or.inr ⟨r', ?_⟩
                        rw [hset]
                    · obtain ⟨ndm, hndm, hdisj⟩ := hkC_core.nodesTouched i hir
                      have hfr : st2.nodes[i]? = st.nodes[i]? :=
                        hV_core.nodesFrame i
                          (by exact hbound i (List.mem_cons_of_mem _ hir))
                          (hnotin_single i hin)
                      rw [hfr] at hndm
                      exact ⟨ndm, hndm, hdisj⟩
                  · have hin : i = nid := by
                      rcases List.mem_cons.mp hmem with h1 | h1
                      · exact h1
                      · exact absurd h1 hir
                    subst hin
                    refine ⟨nd, hnd, Or.inr ⟨st.refs.length, ?_⟩⟩
                    rw [hkC_core.nodesFrame i (by omega) hir, hnd1'2]
                · intro i nd0 hge hsome
                  by_cases hi2 : i < st2.nodes.length
                  · have hnr : i ∉ rest := fun hm => by
                      have := hbound i (List.mem_cons_of_mem _ hm)
                      omega
                    rw [hkC_core.nodesFrame i hi2 hnr] at hsome
                    exact hV_core.nodesNewSel i nd0 (by exact hge) hsome
                  · exact hkC_core.nodesNewSel i nd0 (by omega) hsome
                · exact RecStable.trans (RecStable.trans
                    (recStable_of_frames (fun _ _ => rfl) (fun _ _ => rfl))
                    hV_core.recStable) hkC_core.recStable
              · intro i hmem nd0 hst0 hsel0
                by_cases hin : i = nid
                · subst hin
                  have hnd0eq : nd0 = nd := by
                    rw [hnd] at hst0
                    exact (Option.some.inj hst0).symm
                  subst hnd0eq
                  by_cases hir : i ∈ rest
                  · exact hkC_selT i hir { nd0 with viewRef := some st.refs.length }
                      hnd1'2 (by simpa using hsel0)
                  · refine ⟨{ nd0 with viewRef := some st.refs.length }, ?_, rfl⟩
                    rw [hkC_core.nodesFrame i (by omega) hir, hnd1'2]
                · have hir : i ∈ rest := by
                    rcases List.mem_cons.mp hmem with h1 | h1
                    · exact absurd h1 hin
                    · exact h1
                  have hfr : st2.nodes[i]? = st.nodes[i]? :=
                    hV_core.nodesFrame i (by exact hbound i hmem) (hnotin_single i hin)
                  exact hkC_selT i hir nd0 (by rw [hfr]; exact hst0) hsel0
              · rw [hkC_tr, hV_tr, hpush_trace]
                simp [List.append_assoc]
              · constructor
                · intro e he
                  rcases List.mem_cons.mp he with rfl | he2
                  · rfl
                  · rcases List.mem_append.mp he2 with hm | hm
                    · exact hV_ds.lifecycleFree e hm
                    · exact hkC_ds.lifecycleFree e hm
                · rw [show (Ev.resolveChild nid sel :: (ΔV ++ ΔC)).filterMap Ev.createdId =
                      (ΔV ++ ΔC).filterMap Ev.createdId from by
                    simp [List.filterMap_cons, Ev.createdId]]
                  rw [List.filterMap_append, hV_ds.createSeq, hkC_ds.createSeq,
                    idRange_append]
                · intro r
                  rw [show List.count (Ev.setCompiled r)
                      (Ev.resolveChild nid sel :: (ΔV ++ ΔC)) =
                      List.count (Ev.setCompiled r) ΔV +
                        List.count (Ev.setCompiled r) ΔC from by
                    rw [List.count_cons_of_ne (by simp), List.count_append]]
                  rw [hV_ds.scCount r, hkC_ds.scCount r]
                  by_cases h1 : st.refs.length ≤ r ∧ r < st.refs.length + kV
                  · rw [if_pos h1, if_neg (by omega), if_pos (by omega)]
                  · rw [if_neg h1]
                    by_cases h2 : st.refs.length + kV ≤ r ∧
                        r < st.refs.length + kV + kC
                    · rw [if_pos h2, if_pos (by omega)]
                    · rw [if_neg h2, if_neg (by omega)]
                · intro r hge hlt
                  by_cases h1 : r < st.refs.length + kV
                  · exact ((hV_ds.createBeforeSc r hge h1).append_right ΔC).append_left
                      [Ev.resolveChild nid sel]
                  · exact ((hkC_ds.createBeforeSc r (by omega) (by omega)).append_left
                      ΔV).append_left [Ev.resolveChild nid sel]
                · intro nid0 sel0 hmem
                  rcases List.mem_cons.mp hmem with heq | hm2
                  · injection heq with heq1 heq2
                    subst heq1
                    subst heq2
                    have hPfin : st'.refs[P]? = some rdP := by
                      rw [hkC_frame P (by omega)]
                      exact hst2P
                    have hrs : RecStable st st' := RecStable.trans (RecStable.trans
                      (recStable_of_frames (fun _ _ => rfl) (fun _ _ => rfl))
                      hV_core.recStable) hkC_core.recStable
                    obtain ⟨nd2, hn2, hsel2, _⟩ := hrs.2 nid0 nd hnd
                    exact ⟨P, rdP, nd2, hPfin,
                      (hPmem nid0 (List.mem_cons_self _ _)).1,
                      (hPmem nid0 (List.mem_cons_self _ _)).2, hn2,
                      by rw [hsel2, hsel]⟩
                  · rcases List.mem_append.mp hm2 with hm | hm
                    · exact (hV_ds.resolveSound.mono hkC_core.recStable) _ _ hm
                    · exact hkC_ds.resolveSound _ _ hm

end Branjs

namespace Branjs

theorem vstmt_assemble (fuel : Nat) (hA : AStmt fuel) (C : Compiler)
    (component : Option Component) (host : Nat) (hv : Option Nat)
    (st stG stX : St) (nodesTree : NTree) (treeX t' : VTree) (st' : St)
    (hcomp : Compiler.compileAfterGraft C fuel st.refs.length nodesTree treeX hv stX =
      (.ok t', st'))
    (hGlen : stG.nodes.length = st.nodes.length + nodesTree.preorder.length)
    (hGpre : nodesTree.preorder = idRange st.nodes.length nodesTree.preorder.length)
    (hGframe : ∀ i, i < st.nodes.length → stG.nodes[i]? = st.nodes[i]?)
    (hGroot : ∃ nd : ViewNodeData, stG.nodes[st.nodes.length]? = some nd ∧
      nd.componentSelector = none)
    (hXnodes : stX.nodes = stG.nodes)
    (hXtrace : stX.trace = st.trace ++
      [Ev.factoryCreate component host, Ev.createViewRef st.refs.length])
    (hXlen : stX.refs.length = st.refs.length + 1)
    (hXframe : ∀ i, i < st.refs.length → stX.refs[i]? = st.refs[i]?)
    (hXrd0 : ∃ rd0 : ViewRefData, stX.refs[st.refs.length]? = some rd0 ∧
      rd0.nodesTree = nodesTree)
    (hXrec : RecStable st stX)
    (hhv : ∀ h, hv = some h → h < st.nodes.length) :
    ∃ k, 1 ≤ k ∧ st'.refs.length = st.refs.length + k ∧
      (∀ i, i < st.refs.length → st'.refs[i]? = st.refs[i]?) ∧
      CoreExt st st' hv.toList ∧
      (∀ h, hv = some h → ∃ nd : ViewNodeData, st.nodes[h]? = some nd ∧
        st'.nodes[h]? = some { nd with viewRef := some st.refs.length }) ∧
      ∃ Δ, st'.trace = st.trace ++ Δ ∧ DeltaSpec st.refs.length k st' Δ ∧
        Δ.getLast? = some (.setCompiled st.refs.length) := by
  obtain ⟨rd0, hrd0X, hrd0tree⟩ := hXrd0
  cases nodesTree with
  | node rootN ts =>
    have hmlen : (RTree.node rootN ts : NTree).preorder.length =
        (RTree.preorderList ts).length + 1 := by simp
    rw [hmlen] at hGpre hGlen
    have hidr : idRange st.nodes.length ((RTree.preorderList ts).length + 1) =
        st.nodes.length :: idRange (st.nodes.length + 1) (RTree.preorderList ts).length :=
      rfl
    rw [hidr] at hGpre
    simp only [RTree.preorder_node] at hGpre
    injection hGpre with hroot hrest
    have hnonroot : (RTree.node rootN ts : NTree).nonRootPreorder =
        idRange (st.nodes.length + 1) (RTree.preorderList ts).length := by
      simp only [RTree.nonRootPreorder]
      exact hrest
    have hrootd : (RTree.node rootN ts : NTree).rootData = st.nodes.length := hroot
    obtain ⟨kA, hA_len, hA_frame, ⟨rdA, hrdA, hrdA'⟩, hA_core, hA_hv, hA_selT, ΔA,
      hA_tr, hA_lf, hA_cs, hA_sc, hA_cbs, hA_last, hA_rs⟩ :=
      hA C st.refs.length (.node rootN ts) treeX hv stX t' st' hcomp hXlen
        (fun h0 hh0 => by
          refine ⟨?_, ?_⟩
          · rw [hXnodes]
            have := hhv h0 hh0
            omega
          · rw [hnonroot]
            intro hmem
            rw [mem_idRange] at hmem
            have := hhv h0 hh0
            omega)
        (fun nid hm => by
          rw [hnonroot, mem_idRange] at hm
          rw [hXnodes]
          omega)
        ⟨rd0, hrd0X, hrd0tree, by
          rw [hnonroot, hrootd, mem_idRange]
          omega⟩
    have hrdAeq : rdA = rd0 := by
      rw [hrd0X] at hrdA
      exact (Option.some.inj hrdA).symm
    rw [hrdAeq] at hrdA'
    have hstXnodeslen : stX.nodes.length =
        st.nodes.length + ((RTree.preorderList ts).length + 1) := by
      rw [hXnodes]
      exact hGlen
    have hA_nodesLen : stX.nodes.length ≤ st'.nodes.length := hA_core.nodesLen
    rw [hXlen] at hA_cs hA_sc hA_cbs
    refine ⟨kA + 1, by omega, by omega, ?_, ?_, ?_,
      Ev.factoryCreate component host :: Ev.createViewRef st.refs.length :: ΔA,
      ?_, ?_, ?_⟩
    · intro i hi
      rw [hA_frame i (by omega) (by omega), hXframe i hi]
    · refine ⟨by omega, ?_, by omega, ?_, ?_, ?_, ?_⟩
      · intro i rd hge hsome
        by_cases hieq : i = st.refs.length
        · subst hieq
          rw [hrdA'] at hsome
          rw [← Option.some.inj hsome]
        · exact hA_core.refsNewCompiled i rd (by omega) hsome
      · intro i hi hnotin
        have hinr : i ∉ (RTree.node rootN ts : NTree).nonRootPreorder := by
          rw [hnonroot, mem_idRange]
          omega
        rw [hA_core.nodesFrame i (by omega) (by
            rw [List.mem_append]
            push_neg
            exact ⟨hnotin, hinr⟩), hXnodes, hGframe i hi]
      · intro i hmem
        cases hv with
        | none => simp at hmem
        | some h0 =>
            have hieq : i = h0 := by simpa using hmem
            subst hieq
            obtain ⟨nd, hndX, hndF⟩ := hA_hv i rfl
            have hndst : st.nodes[i]? = some nd := by
              rw [← hGframe i (hhv i rfl), ← hXnodes]
              exact hndX
            exact ⟨nd, hndst, Or.inr ⟨st.refs.length, hndF⟩⟩
      · intro i nd hge hsome
        by_cases hiX : i < stX.nodes.length
        · by_cases hiroot : i = st.nodes.length
          · subst hiroot
            obtain ⟨ndR, hndR, hndRsel⟩ := hGroot
            obtain ⟨nd2, hnd2, hsel2, _⟩ := hA_core.recStable.2 st.nodes.length ndR
              (by rw [hXnodes]; exact hndR)
            rw [hsome] at hnd2
            have hndeq : nd = nd2 := Option.some.inj hnd2
            intro hsel0
            exact absurd hsel0 (by
              rw [hndeq, hsel2, hndRsel]
              simp)
          · have hmem2 : i ∈ (RTree.node rootN ts : NTree).nonRootPreorder := by
              rw [hnonroot, mem_idRange]
              omega
            rcases hXi : stX.nodes[i]? with _ | ndX
            · rw [List.getElem?_eq_none_iff] at hXi
              omega
            · obtain ⟨nd2, hnd2, hsel2, _⟩ := hA_core.recStable.2 i ndX hXi
              rw [hsome] at hnd2
              have hndeq : nd = nd2 := Option.some.inj hnd2
              intro hsel0
              by_cases hseX : ndX.componentSelector.isSome = true
              · obtain ⟨nd3, hnd3, hvr3⟩ := hA_selT i hmem2 ndX hXi hseX
                rw [hsome] at hnd3
                rw [Option.some.inj hnd3]
                exact hvr3
              · have hcontra : ndX.componentSelector.isSome = true := by
                  rw [← hsel2, ← hndeq]
                  exact hsel0
                exact absurd hcontra hseX
        · exact hA_core.nodesNewSel i nd (by omega) hsome
      · exact RecStable.trans hXrec hA_core.recStable
    · intro h0 hh0
      obtain ⟨nd, hndX, hndF⟩ := hA_hv h0 hh0
      refine ⟨nd, ?_, hndF⟩
      rw [← hGframe h0 (hhv h0 hh0), ← hXnodes]
      exact hndX
    · rw [hA_tr, hXtrace]
      simp [List.append_assoc]
    · constructor
      · intro e he
        rcases List.mem_cons.mp he with rfl | he2
        · rfl
        · rcases List.mem_cons.mp he2 with rfl | he3
          · rfl
          · exact hA_lf e he3
      · have hstep : (Ev.factoryCreate component host ::
            Ev.createViewRef st.refs.length :: ΔA).filterMap Ev.createdId =
            st.refs.length :: ΔA.filterMap Ev.createdId := by
          simp [List.filterMap_cons, Ev.createdId]
        rw [hstep, hA_cs]
        rfl
      · intro r
        have hcnt : List.count (Ev.setCompiled r) (Ev.factoryCreate component host ::
            Ev.createViewRef st.refs.length :: ΔA) =
            List.count (Ev.setCompiled r) ΔA := by
          rw [List.count_cons_of_ne (by simp), List.count_cons_of_ne (by simp)]
        rw [hcnt, hA_sc r]
        by_cases h1 : st.refs.length ≤ r ∧ r < st.refs.length + (kA + 1)
        · rw [if_pos (by omega), if_pos h1]
        · rw [if_neg (by omega), if_neg h1]
      · intro r hge hlt
        by_cases hrB : r = st.refs.length
        · subst hrB
          have hscmem : Ev.setCompiled st.refs.length ∈ ΔA := by
            have hc := hA_sc st.refs.length
            rw [if_pos (by omega)] at hc
            exact List.one_le_count_iff.mp (by omega)
          exact PrecedesL.of_mem_mem
            (show Ev.createViewRef st.refs.length ∈
              [Ev.factoryCreate component host, Ev.createViewRef st.refs.length] from
              by simp) hscmem
        · exact (hA_cbs r (by omega) (by omega)).append_left
            [Ev.factoryCreate component host, Ev.createViewRef st.refs.length]
      · intro nid sel hmem
        rcases List.mem_cons.mp hmem with heq | hm2
        · exact absurd heq (by simp)
        · rcases List.mem_cons.mp hm2 with heq | hm3
          · exact absurd heq (by simp)
          · exact hA_rs nid sel hm3
    · have hne : ΔA ≠ [] := by
        intro hnil
        rw [hnil] at hA_last
        simp at hA_last
      have hcast : (([Ev.factoryCreate component host,
          Ev.createViewRef st.refs.length] ++ ΔA).getLast? = ΔA.getLast?) :=
        List.getLast?_append_of_ne_nil _ hne
      exact hcast.trans hA_last

end Branjs

namespace Branjs

theorem vstmt_succ (fuel : Nat) (hA : AStmt fuel) : VStmt (fuel + 1) := by
  intro C component host vt pv hv st t' st' h hhv
  rw [Compiler.compileViewRef.eq_def] at h
  simp only [] at h
  rcases hfc : C.componentFactory.create component host with e | componentRef
  · rw [hfc] at h
    exact absurd h (by simp)
  · rw [hfc] at h
    simp only [] at h
    rcases hgv : Compiler.getViewNodes C.bindingBuilder
        (C.parser.parse componentRef.template host)
        (st.pushEv (.factoryCreate component host)) with ⟨res1, stG⟩
    rw [hgv] at h
    cases res1 with
    | error e => exact absurd h (by simp)
    | ok nodesTree =>
      simp only [] at h
      simp only [St.allocRef] at h
      obtain ⟨hGrefs, hGtrace, hGroot0, hGlen, hGpre, hGframe, hGvr, hGrootrec⟩ :=
        getViewNodes_spec C.bindingBuilder (C.parser.parse componentRef.template host)
          (st.pushEv (.factoryCreate component host)) nodesTree stG hgv
      have hGrefs2 : stG.refs = st.refs := hGrefs
      have hGtrace2 : stG.trace = st.trace ++ [Ev.factoryCreate component host] := hGtrace
      have hGlen2 : stG.nodes.length = st.nodes.length + nodesTree.preorder.length := hGlen
      have hGpre2 : nodesTree.preorder =
          idRange st.nodes.length nodesTree.preorder.length := hGpre
      have hGframe2 : ∀ i, i < st.nodes.length → stG.nodes[i]? = st.nodes[i]? := hGframe
      have hGroot2 : ∃ nd : ViewNodeData, stG.nodes[st.nodes.length]? = some nd ∧
          nd.componentSelector = none := by
        obtain ⟨nd, ha, hb, _⟩ := hGrootrec
        exact ⟨nd, ha, hb⟩
      rw [hGrefs2] at h
      have hrecStG : RecStable st stG :=
        RecStable.trans (recStable_of_frames (fun _ _ => rfl) (fun _ _ => rfl))
          (recStable_of_frames (fun i _ => by rw [hGrefs2]) hGframe2)
      cases vt with
      | none =>
        cases pv with
        | none =>
            simp only [] at h
            have hlt1 : st.refs.length <
                (st.refs ++ [(⟨componentRef, nodesTree, none, false⟩ : ViewRefData)]).length := by
              simp
            obtain ⟨hU_nodes, hU_trace, hU_len, hU_frame, rdU, hrdU, hrdU'⟩ :=
              updateRenderHost_spec
                { stG with
                    refs := st.refs ++ [⟨componentRef, nodesTree, none, false⟩]
                    trace := stG.trace ++ [.createViewRef st.refs.length] }
                st.refs.length host hlt1
            have hrdUeq : rdU = ⟨componentRef, nodesTree, none, false⟩ := by
              have hcc : (st.refs ++
                  [(⟨componentRef, nodesTree, none, false⟩ : ViewRefData)])[st.refs.length]? =
                  some ⟨componentRef, nodesTree, none, false⟩ := by simp
              rw [hcc] at hrdU
              exact (Option.some.inj hrdU).symm
            refine vstmt_assemble fuel hA C component host hv st stG _ nodesTree _ t' st'
              h ?_ ?_ ?_ ?_ ?_ ?_ ?_ ?_ ?_ ?_ ?_
            · exact hGlen2
            · exact hGpre2
            · exact hGframe2
            · exact hGroot2
            · rw [hU_nodes]
            · rw [hU_trace]
              simp only []
              rw [hGtrace2, List.append_assoc]
              rfl
            · rw [hU_len]
              simp
            · intro i hi
              rw [hU_frame i (by omega)]
              exact List.getElem?_append_left hi
            · rw [hrdUeq] at hrdU'
              exact ⟨_, hrdU', rfl⟩
            · have hstep2 : RecStable stG { stG with
                  refs := st.refs ++ [⟨componentRef, nodesTree, none, false⟩]
                  trace := stG.trace ++ [Ev.createViewRef st.refs.length] } :=
                recStable_of_frames (fun i hi => by
                  rw [hGrefs2] at hi ⊢
                  exact List.getElem?_append_left hi) (fun _ _ => rfl)
              have hstep3 := recStable_updateRenderHost { stG with
                  refs := st.refs ++ [⟨componentRef, nodesTree, none, false⟩]
                  trace := stG.trace ++ [Ev.createViewRef st.refs.length] }
                st.refs.length host
              exact RecStable.trans hrecStG (RecStable.trans hstep2 hstep3)
            · exact hhv
        | some p =>
            simp only [] at h
            exact absurd h (by simp)
      | some tv =>
        cases pv with
        | none =>
            simp only [] at h
            exact absurd h (by simp)
        | some p =>
            simp only [] at h
            rcases haddU : VTree.addUnder tv p st.refs.length with _ | tGr
            · rw [haddU] at h
              exact absurd h (by simp)
            · rw [haddU] at h
              simp only [] at h
              refine vstmt_assemble fuel hA C component host hv st stG _ nodesTree _ t' st'
                h ?_ ?_ ?_ ?_ ?_ ?_ ?_ ?_ ?_ ?_ ?_
              · exact hGlen2
              · exact hGpre2
              · exact hGframe2
              · exact hGroot2
              · rfl
              · simp only []
                rw [hGtrace2, List.append_assoc]
                rfl
              · simp
              · intro i hi
                exact List.getElem?_append_left hi
              · refine ⟨⟨componentRef, nodesTree, none, false⟩, by simp, rfl⟩
              · have hstep2 : RecStable stG { stG with
                    refs := st.refs ++ [⟨componentRef, nodesTree, none, false⟩]
                    trace := stG.trace ++ [Ev.createViewRef st.refs.length] } :=
                  recStable_of_frames (fun i hi => by
                    rw [hGrefs2] at hi ⊢
                    exact List.getElem?_append_left hi) (fun _ _ => rfl)
                exact RecStable.trans hrecStG hstep2
              · exact hhv

end Branjs

namespace Branjs

/-- The main invariant of the recursive compilation: the three mutually
recursive compiler functions satisfy their specifications at every fuel. -/
theorem compile_ml1 : ∀ fuel, VStmt fuel ∧ AStmt fuel ∧ CStmt fuel := by
  intro fuel
  induction fuel with
  | zero => exact ⟨vstmt_zero, astmt_zero, cstmt_zero⟩
  | succ f ih =>
      exact ⟨vstmt_succ f ih.2.1, astmt_succ f ih.2.2, cstmt_succ f ih.1 ih.2.2⟩

end Branjs

namespace Branjs

/-! ### Claims C5, C6, C3 -/

/-- Claim C5: after a successful compilation (from a fresh store), every
ViewNode in every ViewRef's node tree whose componentSelector is set has a
non-null viewRef — no dangling component placeholders remain. -/
theorem claim_no_dangling_component_placeholders
    (C : Compiler) (fuel : Nat) (component : Component) (host : Nat)
    (t' : VTree) (st' : St)
    (h : C.compile fuel component host St.empty = (.ok t', st')) :
    ∀ (r : Nat) (rd : ViewRefData), st'.refs[r]? = some rd →
      ∀ nid ∈ rd.nodesTree.preorder, ∀ nd : ViewNodeData, st'.nodes[nid]? = some nd →
        nd.componentSelector.isSome = true → nd.viewRef.isSome = true := by
  obtain ⟨k, _, _, _, hcore, _, _, _, _, _⟩ :=
    (compile_ml1 fuel).1 C (some component) host none none none St.empty t' st' h
      (fun h0 hh0 => Option.noConfusion hh0)
  intro r rd _ nid _ nd hnd hsel
  exact hcore.nodesNewSel nid nd (Nat.zero_le nid) hnd hsel

/-- Witness for C5: in the demo compilation, ViewNode 1 (the `child`
placeholder of the root component's tree) has its viewRef populated. -/
theorem claim_no_dangling_component_placeholders_witness :
    (⟨10, some "child", [], some 1⟩ : ViewNodeData).viewRef.isSome = true :=
  claim_no_dangling_component_placeholders demoCompiler 10 ⟨"app", "appT"⟩ 0
    demoTree demoOut.2 (by rfl) 0
    ⟨⟨"app", "appT", 0⟩, .node 0 [.node 1 [], .node 2 [.node 3 []]], some 0, true⟩
    (by rfl) 1 (by decide) ⟨10, some "child", [], some 1⟩ (by rfl) (by rfl)

/-- Claim C6: during the child-discovery traversal the compiler never treats
a tree's root ViewNode as a child-component placeholder: every resolveChild
event of a successful compilation names a node that is a non-root node of
the ViewNode tree of a stored ViewRef (and carries that node's selector), so
a component is never recompiled for its own host element. -/
theorem claim_child_discovery_skips_root
    (C : Compiler) (fuel : Nat) (component : Component) (host : Nat)
    (t' : VTree) (st' : St)
    (h : C.compile fuel component host St.empty = (.ok t', st')) :
    ∀ nid sel, Ev.resolveChild nid sel ∈ st'.trace →
      ∃ (r : Nat) (rd : ViewRefData) (nd : ViewNodeData), st'.refs[r]? = some rd ∧
        nid ∈ rd.nodesTree.nonRootPreorder ∧ nid ≠ rd.nodesTree.rootData ∧
        st'.nodes[nid]? = some nd ∧ nd.componentSelector = some sel := by
  obtain ⟨k, _, _, _, _, _, Δ, htr, hds, _⟩ :=
    (compile_ml1 fuel).1 C (some component) host none none none St.empty t' st' h
      (fun h0 hh0 => Option.noConfusion hh0)
  intro nid sel hmem
  refine hds.resolveSound nid sel ?_
  rw [htr] at hmem
  simpa [St.empty] using hmem

/-- Witness for C6: the single resolveChild event of the demo compilation
names node 1, a non-root node of the root ViewRef's tree carrying selector
`child`. -/
theorem claim_child_discovery_skips_root_witness :
    ∃ (r : Nat) (rd : ViewRefData) (nd : ViewNodeData), demoOut.2.refs[r]? = some rd ∧
      1 ∈ rd.nodesTree.nonRootPreorder ∧ 1 ≠ rd.nodesTree.rootData ∧
      demoOut.2.nodes[1]? = some nd ∧ nd.componentSelector = some "child" :=
  claim_child_discovery_skips_root demoCompiler 10 ⟨"app", "appT"⟩ 0
    demoTree demoOut.2 (by rfl) 1 "child" (by decide)

/-- Claim C3: in every successful bootstrap run from a fresh store, the
lifecycle events of the trace are exactly one init per View Reference, in
breadth-first order over the compiled tree (which covers every View
Reference), followed by a single update invoked on the root View Reference —
so every init completes strictly before any update begins and update is
invoked exactly once, on the root only. -/
theorem claim_bootstrap_init_before_update
    (v : View) (fuel : Nat) (host : Nat) (v' : View) (tree : VTree) (st' : St)
    (h : v.bootstrap fuel host St.empty = (.ok (v', tree), st')) :
    st'.trace.filter Ev.isLifecycle =
      tree.bfs.map Ev.initRef ++ [Ev.updateRef tree.rootData] ∧
    ∀ r ∈ tree.preorder, r ∈ tree.bfs := by
  rw [View.bootstrap] at h
  rcases hent : v.componentsRegistry.getEntryComponent with _ | entry
  · rw [hent] at h
    exact absurd h (by simp [assertEntryComponentRegistered])
  · rw [hent] at h
    simp only [assertEntryComponentRegistered] at h
    rcases hcomp : v.compiler.compile fuel entry host St.empty with ⟨res, st2⟩
    rw [hcomp] at h
    cases res with
    | error e => exact absurd h (by simp)
    | ok tree0 =>
      simp only [] at h
      injection h with h1 h2
      injection h1 with h1
      injection h1 with hv1 ht1
      subst ht1
      subst h2
      obtain ⟨k, _, _, _, _, _, Δ, htr, hds, _⟩ :=
        (compile_ml1 fuel).1 v.compiler (some entry) host none none none St.empty
          tree0 st2 hcomp (fun h0 hh0 => Option.noConfusion hh0)
      constructor
      · show (({ st2 with trace := st2.trace ++ tree0.bfs.map Ev.initRef }.pushEv
            (Ev.updateRef tree0.rootData)).trace.filter Ev.isLifecycle) = _
        rw [St.pushEv]
        simp only []
        rw [List.filter_append, List.filter_append]
        have h1 : st2.trace.filter Ev.isLifecycle = [] := by
          rw [htr]
          rw [List.filter_eq_nil_iff]
          intro e he
          have he2 : e ∈ Δ := by simpa [St.empty] using he
          simp [hds.lifecycleFree e he2]
        have h2 : (tree0.bfs.map Ev.initRef).filter Ev.isLifecycle =
            tree0.bfs.map Ev.initRef := by
          rw [List.filter_eq_self]
          intro e he
          obtain ⟨r, _, rfl⟩ := List.mem_map.mp he
          rfl
        have h3 : ([Ev.updateRef tree0.rootData]).filter Ev.isLifecycle =
            [Ev.updateRef tree0.rootData] := by
          rfl
        rw [h1, h2, h3]
        simp
      · intro r hr
        exact RTree.mem_bfs_of_mem_preorder hr

/-- Witness for C3: the demo bootstrap traces init(0), init(1), update(0). -/
theorem claim_bootstrap_init_before_update_witness :
    demoBootOut.2.trace.filter Ev.isLifecycle =
      demoTree.bfs.map Ev.initRef ++ [Ev.updateRef demoTree.rootData] ∧
    (1 : Nat) ∈ demoTree.bfs :=
  ⟨(claim_bootstrap_init_before_update demoView 10 0
      { demoView with viewRefTree := some demoTree } demoTree demoBootOut.2
      (by rfl)).1,
   (claim_bootstrap_init_before_update demoView 10 0
      { demoView with viewRefTree := some demoTree } demoTree demoBootOut.2
      (by rfl)).2 1 (by decide)⟩

end Branjs

namespace Branjs

/-! ### Grafting lemmas for the shared View Reference tree (Tree.add, spec section 4.1) -/

theorem preorderList_append {α : Type} (l₁ l₂ : List (RTree α)) :
    RTree.preorderList (l₁ ++ l₂) = RTree.preorderList l₁ ++ RTree.preorderList l₂ := by
  induction l₁ with
  | nil => simp
  | cons t ts ih => simp [ih]

mutual

theorem VTree.addUnder_none_iff (t : VTree) (p x : Nat) :
    VTree.addUnder t p x = none ↔ p ∉ t.preorder := by
  cases t with
  | node a ts =>
      rw [VTree.addUnder]
      by_cases hap : a = p
      · rw [if_pos hap]
        simp [hap]
      · rw [if_neg hap]
        have hl := VTree.addUnderList_none_iff ts p x
        rcases hml : VTree.addUnderList ts p x with _ | ts'
        · rw [hml] at hl
          simp only [RTree.preorder_node, List.mem_cons]
          constructor
          · intro _ hc
            rcases hc with hc | hc
            · exact hap hc.symm
            · exact (hl.mp rfl) hc
          · intro _
            trivial
        · rw [hml] at hl
          simp only [RTree.preorder_node, List.mem_cons]
          constructor
          · intro hc
            exact absurd hc (by simp)
          · intro hc
            exfalso
            refine hc (Or.inr ?_)
            by_contra hnm
            exact absurd (hl.mpr hnm) (by simp)

theorem VTree.addUnderList_none_iff (ts : List VTree) (p x : Nat) :
    VTree.addUnderList ts p x = none ↔ p ∉ RTree.preorderList ts := by
  cases ts with
  | nil =>
      rw [VTree.addUnderList]
      simp
  | cons t rest =>
      rw [VTree.addUnderList]
      have h1 := VTree.addUnder_none_iff t p x
      have h2 := VTree.addUnderList_none_iff rest p x
      rcases hm1 : VTree.addUnder t p x with _ | t₁
      · rw [hm1] at h1
        rcases hm2 : VTree.addUnderList rest p x with _ | rest₁
        · rw [hm2] at h2
          simp only [RTree.preorderList_cons, List.mem_append]
          constructor
          · intro _ hc
            rcases hc with hc | hc
            · exact (h1.mp rfl) hc
            · exact (h2.mp rfl) hc
          · intro _
            trivial
        · rw [hm2] at h2
          simp only [RTree.preorderList_cons, List.mem_append]
          constructor
          · intro hc
            exact absurd hc (by simp)
          · intro hc
            exfalso
            refine hc (Or.inr ?_)
            by_contra hnm
            exact absurd (h2.mpr hnm) (by simp)
      · rw [hm1] at h1
        simp only [RTree.preorderList_cons, List.mem_append]
        constructor
        · intro hc
          exact absurd hc (by simp)
        · intro hc
          exfalso
          refine hc (Or.inl ?_)
          by_contra hnm
          exact absurd (h1.mpr hnm) (by simp)

end

theorem VTree.addUnder_mem {t : VTree} {p x : Nat} {t' : VTree}
    (h : VTree.addUnder t p x = some t') : p ∈ t.preorder := by
  by_contra hc
  rw [(VTree.addUnder_none_iff t p x).mpr hc] at h
  exact Option.noConfusion h

theorem VTree.addUnder_of_mem {t : VTree} {p : Nat} (x : Nat) (h : p ∈ t.preorder) :
    ∃ t', VTree.addUnder t p x = some t' := by
  rcases hml : VTree.addUnder t p x with _ | t'
  · exact absurd ((VTree.addUnder_none_iff t p x).mp hml) (by simp [h])
  · exact ⟨t', rfl⟩

theorem VTree.addUnder_rootData {t : VTree} {p x : Nat} {t' : VTree}
    (h : VTree.addUnder t p x = some t') : t'.rootData = t.rootData := by
  cases t with
  | node a ts =>
      rw [VTree.addUnder] at h
      by_cases hap : a = p
      · rw [if_pos hap] at h
        rw [← Option.some.inj h]
        rfl
      · rw [if_neg hap] at h
        rcases hml : VTree.addUnderList ts p x with _ | ts'
        · rw [hml] at h
          exact absurd h (by simp)
        · rw [hml] at h
          rw [← Option.some.inj h]
          rfl

theorem VTree.addUnderList_map_rootData {ts : List VTree} {p x : Nat} {ts' : List VTree}
    (h : VTree.addUnderList ts p x = some ts') :
    ts'.map RTree.rootData = ts.map RTree.rootData := by
  induction ts generalizing ts' with
  | nil =>
      rw [VTree.addUnderList] at h
      exact absurd h (by simp)
  | cons t rest ih =>
      rw [VTree.addUnderList] at h
      rcases h1 : VTree.addUnder t p x with _ | t₁
      · rw [h1] at h
        rcases h2 : VTree.addUnderList rest p x with _ | rest₁
        · rw [h2] at h
          exact absurd h (by simp)
        · rw [h2] at h
          rw [← Option.some.inj h]
          simp [ih h2]
      · rw [h1] at h
        rw [← Option.some.inj h]
        simp [VTree.addUnder_rootData h1]

mutual

theorem VTree.addUnder_preorder (t : VTree) (p x : Nat) :
    ∀ t', VTree.addUnder t p x = some t' → t'.preorder.Perm (x :: t.preorder) := by
  cases t with
  | node a ts =>
      intro t' h
      rw [VTree.addUnder] at h
      by_cases hap : a = p
      · rw [if_pos hap] at h
        rw [← Option.some.inj h]
        simp only [RTree.preorder_node, preorderList_append, RTree.preorderList_cons,
          RTree.preorderList_nil, List.append_nil]
        refine List.Perm.trans (List.Perm.cons a ?_) (List.Perm.swap x a _)
        exact List.perm_append_singleton x (RTree.preorderList ts)
      · rw [if_neg hap] at h
        rcases hml : VTree.addUnderList ts p x with _ | ts'
        · rw [hml] at h
          exact absurd h (by simp)
        · rw [hml] at h
          rw [← Option.some.inj h]
          simp only [RTree.preorder_node]
          refine List.Perm.trans
            (List.Perm.cons a (VTree.addUnderList_preorder ts p x ts' hml))
            (List.Perm.swap x a _)

theorem VTree.addUnderList_preorder (ts : List VTree) (p x : Nat) :
    ∀ ts', VTree.addUnderList ts p x = some ts' →
      (RTree.preorderList ts').Perm (x :: RTree.preorderList ts) := by
  cases ts with
  | nil =>
      intro ts' h
      rw [VTree.addUnderList] at h
      exact absurd h (by simp)
  | cons t rest =>
      intro ts' h
      rw [VTree.addUnderList] at h
      rcases h1 : VTree.addUnder t p x with _ | t₁
      · rw [h1] at h
        rcases h2 : VTree.addUnderList rest p x with _ | rest₁
        · rw [h2] at h
          exact absurd h (by simp)
        · rw [h2] at h
          rw [← Option.some.inj h]
          simp only [RTree.preorderList_cons]
          refine List.Perm.trans
            (List.Perm.append_left t.preorder
              (VTree.addUnderList_preorder rest p x rest₁ h2)) ?_
          exact List.perm_middle
      · rw [h1] at h
        rw [← Option.some.inj h]
        simp only [RTree.preorderList_cons]
        exact List.Perm.append_right (RTree.preorderList rest)
          (VTree.addUnder_preorder t p x t₁ h1)

end

mutual

theorem VTree.childrenIds_eq_nil (t : VTree) (q : Nat) (h : q ∉ t.preorder) :
    VTree.childrenIds t q = [] := by
  cases t with
  | node a ts =>
      rw [VTree.childrenIds]
      rw [if_neg (fun haq => h (by simp [haq]))]
      exact VTree.childrenIdsList_eq_nil ts q (fun hm => h (by simp [hm]))

theorem VTree.childrenIdsList_eq_nil (ts : List VTree) (q : Nat)
    (h : q ∉ RTree.preorderList ts) : VTree.childrenIdsList ts q = [] := by
  cases ts with
  | nil => rw [VTree.childrenIdsList]
  | cons t rest =>
      rw [VTree.childrenIdsList]
      rw [if_neg (fun hm => h (by simp [hm]))]
      exact VTree.childrenIdsList_eq_nil rest q (fun hm => h (by simp [hm]))

end

theorem VTree.childrenIdsList_append (l₁ l₂ : List VTree) (q : Nat) :
    VTree.childrenIdsList (l₁ ++ l₂) q =
      if q ∈ RTree.preorderList l₁ then VTree.childrenIdsList l₁ q
      else VTree.childrenIdsList l₂ q := by
  induction l₁ with
  | nil => simp
  | cons t ts ih =>
      rw [List.cons_append, VTree.childrenIdsList]
      by_cases hq : q ∈ t.preorder
      · rw [if_pos hq, if_pos (show q ∈ RTree.preorderList (t :: ts) by simp [hq])]
        rw [VTree.childrenIdsList, if_pos hq]
      · rw [if_neg hq, ih]
        by_cases hq2 : q ∈ RTree.preorderList ts
        · rw [if_pos hq2, if_pos (show q ∈ RTree.preorderList (t :: ts) by simp [hq2])]
          rw [VTree.childrenIdsList, if_neg hq]
        · rw [if_neg hq2, if_neg (show q ∉ RTree.preorderList (t :: ts) by
            simp only [RTree.preorderList_cons, List.mem_append]
            intro hc
            rcases hc with hc | hc
            · exact hq hc
            · exact hq2 hc)]

end Branjs

namespace Branjs

mutual

/-- Children lists after a graft: the target's children gain the new leaf at
the end, the new leaf has no children, and every other node's children list
is untouched. -/
theorem VTree.addUnder_childrenIds (t : VTree) (p x : Nat) :
    ∀ t', x ∉ t.preorder → VTree.addUnder t p x = some t' → ∀ q,
      VTree.childrenIds t' q =
        if q = p then VTree.childrenIds t p ++ [x]
        else if q = x then [] else VTree.childrenIds t q := by
  cases t with
  | node a ts =>
      intro t' hx h q
      rw [VTree.addUnder] at h
      have hxa : x ≠ a := fun hh => hx (by simp [hh])
      have hxts : x ∉ RTree.preorderList ts := fun hh => hx (by simp [hh])
      by_cases hap : a = p
      · rw [if_pos hap] at h
        obtain rfl := (Option.some.inj h).symm
        by_cases haq : a = q
        · have hqp : q = p := haq.symm.trans hap
          rw [if_pos hqp]
          rw [VTree.childrenIds, if_pos haq, VTree.childrenIds, if_pos hap]
          simp [RTree.rootData]
        · rw [VTree.childrenIds, if_neg haq, VTree.childrenIdsList_append]
          have hqp : q ≠ p := fun hh => haq (hap.trans hh.symm)
          rw [if_neg hqp]
          by_cases hqts : q ∈ RTree.preorderList ts
          · have hqx : q ≠ x := fun hh => hxts (hh ▸ hqts)
            rw [if_pos hqts, if_neg hqx, VTree.childrenIds, if_neg haq]
          · rw [if_neg hqts]
            by_cases hqx : q = x
            · rw [if_pos hqx, VTree.childrenIdsList,
                if_pos (show q ∈ (RTree.node x [] : VTree).preorder by simp [hqx]),
                VTree.childrenIds, if_pos hqx.symm]
              simp
            · rw [if_neg hqx, VTree.childrenIdsList,
                if_neg (show q ∉ (RTree.node x [] : VTree).preorder by simp [hqx]),
                VTree.childrenIdsList, VTree.childrenIds, if_neg haq,
                VTree.childrenIdsList_eq_nil ts q hqts]
      · rw [if_neg hap] at h
        rcases hml : VTree.addUnderList ts p x with _ | ts₁
        · rw [hml] at h
          exact absurd h (by simp)
        · rw [hml] at h
          obtain rfl := (Option.some.inj h).symm
          have hIH := VTree.addUnderList_childrenIds ts p x ts₁ hxts hml
          by_cases haq : a = q
          · rw [VTree.childrenIds, if_pos haq,
              VTree.addUnderList_map_rootData hml]
            have hqp : q ≠ p := fun hh => hap (haq.trans hh)
            have hqx : q ≠ x := fun hh => hxa (hh.symm.trans haq.symm)
            rw [if_neg hqp, if_neg hqx, VTree.childrenIds, if_pos haq]
          · rw [VTree.childrenIds, if_neg haq, hIH q]
            have e1 : VTree.childrenIds (.node a ts) p = VTree.childrenIdsList ts p := by
              rw [VTree.childrenIds, if_neg hap]
            have e2 : VTree.childrenIds (.node a ts) q = VTree.childrenIdsList ts q := by
              rw [VTree.childrenIds, if_neg haq]
            rw [e1, e2]

theorem VTree.addUnderList_childrenIds (ts : List VTree) (p x : Nat) :
    ∀ ts', x ∉ RTree.preorderList ts → VTree.addUnderList ts p x = some ts' → ∀ q,
      VTree.childrenIdsList ts' q =
        if q = p then VTree.childrenIdsList ts p ++ [x]
        else if q = x then [] else VTree.childrenIdsList ts q := by
  cases ts with
  | nil =>
      intro ts' _ h q
      rw [VTree.addUnderList] at h
      exact absurd h (by simp)
  | cons t rest =>
      intro ts' hx h q
      have hxt : x ∉ t.preorder := fun hh => hx (by simp [hh])
      have hxr : x ∉ RTree.preorderList rest := fun hh => hx (by simp [hh])
      rw [VTree.addUnderList] at h
      rcases h1 : VTree.addUnder t p x with _ | t₁
      · rw [h1] at h
        rcases h2 : VTree.addUnderList rest p x with _ | rest₁
        · rw [h2] at h
          exact absurd h (by simp)
        · rw [h2] at h
          obtain rfl := (Option.some.inj h).symm
          have hpnT : p ∉ t.preorder := (VTree.addUnder_none_iff t p x).mp h1
          have hIH := VTree.addUnderList_childrenIds rest p x rest₁ hxr h2
          rw [VTree.childrenIdsList]
          by_cases hqt : q ∈ t.preorder
          · have hqp : q ≠ p := fun hh => hpnT (hh ▸ hqt)
            have hqx : q ≠ x := fun hh => hxt (hh ▸ hqt)
            rw [if_pos hqt, if_neg hqp, if_neg hqx, VTree.childrenIdsList, if_pos hqt]
          · rw [if_neg hqt, hIH q]
            by_cases hqp : q = p
            · rw [if_pos hqp, if_pos hqp, VTree.childrenIdsList, if_neg (hqp ▸ hqt)]
            · by_cases hqx : q = x
              · rw [if_neg hqp, if_pos hqx, if_neg hqp, if_pos hqx]
              · rw [if_neg hqp, if_neg hqx, if_neg hqp, if_neg hqx,
                  VTree.childrenIdsList, if_neg hqt]
      · rw [h1] at h
        obtain rfl := (Option.some.inj h).symm
        have hpT : p ∈ t.preorder := VTree.addUnder_mem h1
        have hperm := VTree.addUnder_preorder t p x t₁ h1
        have hIH := VTree.addUnder_childrenIds t p x t₁ hxt h1
        rw [VTree.childrenIdsList]
        have hmem_iff : q ∈ t₁.preorder ↔ (q = x ∨ q ∈ t.preorder) := by
          rw [hperm.mem_iff]
          simp
        by_cases hqp : q = p
        · have hqT : q ∈ t₁.preorder := hmem_iff.mpr (Or.inr (hqp ▸ hpT))
          rw [if_pos hqT, hIH q, if_pos hqp, if_pos hqp, VTree.childrenIdsList,
            if_pos hpT]
        · by_cases hqx : q = x
          · have hqT : q ∈ t₁.preorder := hmem_iff.mpr (Or.inl hqx)
            rw [if_pos hqT, hIH q, if_neg hqp, if_pos hqx, if_neg hqp, if_pos hqx]
          · by_cases hqt : q ∈ t.preorder
            · have hqT : q ∈ t₁.preorder := hmem_iff.mpr (Or.inr hqt)
              rw [if_pos hqT, hIH q, if_neg hqp, if_neg hqx, if_neg hqp, if_neg hqx,
                VTree.childrenIdsList, if_pos hqt]
            · have hqT : q ∉ t₁.preorder := fun hh => by
                rcases hmem_iff.mp hh with h2 | h2
                · exact hqx h2
                · exact hqt h2
              rw [if_neg hqT, if_neg hqp, if_neg hqx, VTree.childrenIdsList,
                if_neg hqt]

end

theorem VTree.edge_leaf {a q c : Nat} (h : VTree.Edge (.node a []) q c) : False := by
  rw [VTree.Edge] at h
  by_cases haq : a = q
  · rw [VTree.childrenIds, if_pos haq] at h
    simp at h
  · rw [VTree.childrenIds, if_neg haq, VTree.childrenIdsList] at h
    simp at h

theorem idRange_nodup (s n : Nat) : (idRange s n).Nodup := by
  induction n generalizing s with
  | zero => simp [idRange]
  | succ n ih =>
      rw [idRange]
      refine List.nodup_cons.mpr ⟨?_, ih (s + 1)⟩
      rw [mem_idRange]
      omega

theorem eq_append_singleton_of_getLast {α : Type} {l : List α} {a : α}
    (h : l.getLast? = some a) : ∃ l₀, l = l₀ ++ [a] := by
  induction l with
  | nil => exact absurd h (by simp)
  | cons b rest ih =>
      cases rest with
      | nil =>
          have hba : b = a := by simpa using h
          exact ⟨[], by simp [hba]⟩
      | cons c rest2 =>
          rw [List.getLast?_cons_cons] at h
          obtain ⟨l₀, hl⟩ := ih h
          exact ⟨b :: l₀, by rw [List.cons_append, ← hl]⟩

theorem precedes_last_of_mem {Δ : List Ev} {a b : Ev}
    (hlast : Δ.getLast? = some b) (hmem : a ∈ Δ) (hne : a ≠ b) :
    PrecedesL Δ a b := by
  obtain ⟨Δ₀, rfl⟩ := eq_append_singleton_of_getLast hlast
  have ha : a ∈ Δ₀ := by
    rcases List.mem_append.mp hmem with h1 | h1
    · exact h1
    · exact absurd (by simpa using h1) hne
  exact precedesL_concat_of_mem ha

/-- Shape of a ViewNode tree whose preorder is a contiguous id range: the
root is the first id and the non-root nodes are the rest of the range. -/
theorem preorder_decomp {t : NTree} {s n : Nat} (hpre : t.preorder = idRange s n) :
    t.rootData = s ∧ t.nonRootPreorder = idRange (s + 1) (n - 1) ∧ 1 ≤ n := by
  cases t with
  | node a ts =>
      cases n with
      | zero =>
          rw [idRange] at hpre
          simp at hpre
      | succ m =>
          rw [idRange] at hpre
          simp only [RTree.preorder_node] at hpre
          injection hpre with h1 h2
          refine ⟨h1, ?_, by omega⟩
          rw [RTree.nonRootPreorder]
          simpa using h2

end Branjs

namespace Branjs

theorem v2stmt_zero : V2Stmt 0 := by
  intro C component host vt pv hv st t' st' h _
  rw [Compiler.compileViewRef] at h
  exact absurd h (by simp)

theorem a2stmt_zero : A2Stmt 0 := by
  intro C refId nodesTree tree hv st t' st' h _ _ _ _ _ _ _
  rw [Compiler.compileAfterGraft] at h
  exact absurd h (by simp)

theorem c2stmt_zero : C2Stmt 0 := by
  intro C nids tree P st t' st' h _ _ _ _ _
  rw [Compiler.compileChildren] at h
  exact absurd h (by simp)

theorem a2stmt_succ (fuel : Nat) (hC2 : C2Stmt fuel) : A2Stmt (fuel + 1) := by
  intro C refId nodesTree tree hv st t' st' h hlen hhv hnids hrd0pack hPm hNd hBd
  obtain ⟨rd0, hrd0, hrd0tree, hrootnm⟩ := hrd0pack
  rw [Compiler.compileAfterGraft.eq_def] at h
  simp only [] at h
  set st1 := (match hv with
    | some nid => st.setNodeViewRef nid refId
    | none => st) with hst1
  have hF1 : st1.refs = st.refs := by
    cases hv with
    | none => rfl
    | some hnode => exact (setNodeViewRef_spec st hnode refId (hhv hnode rfl).1).1
  have hF2 : st1.trace = st.trace := by
    cases hv with
    | none => rfl
    | some hnode => exact (setNodeViewRef_spec st hnode refId (hhv hnode rfl).1).2.1
  have hF3 : st1.nodes.length = st.nodes.length := by
    cases hv with
    | none => rfl
    | some hnode => exact (setNodeViewRef_spec st hnode refId (hhv hnode rfl).1).2.2.1
  rcases hcc : Compiler.compileChildren C fuel nodesTree.nonRootPreorder tree refId st1
    with ⟨res, st2⟩
  rw [hcc] at h
  cases res with
  | error e => exact absurd h (by simp)
  | ok tree2 =>
    simp only [] at h
    injection h with h1 h2
    injection h1 with h1
    subst h1
    subst h2
    obtain ⟨k, hk_len, Δc, hk_tr, hk_root, hk_perm, hk_stab, hk_edge⟩ :=
      hC2 C nodesTree.nonRootPreorder tree refId st1 tree2 st2 hcc
        (fun nid hm => by rw [hF3]; exact hnids nid hm)
        ⟨rd0, by rw [hF1]; exact hrd0, by rw [hF1]; omega,
          fun nid hm => ⟨by rw [hrd0tree]; exact hm,
            by rw [hrd0tree]; exact fun heq => hrootnm (heq ▸ hm)⟩⟩
        hPm hNd (fun y hy => by rw [hF1]; exact hBd y hy)
    have hreflen1 : st1.refs.length = st.refs.length := by rw [hF1]
    rw [hreflen1] at hk_len hk_perm hk_edge
    have hrefIdlt2 : refId < st2.refs.length := by omega
    obtain ⟨hsc_nodes, hsc_trace, hsc_len, hsc_frame, rdX, hrdX, hrdX'⟩ :=
      setCompiled_spec st2 refId hrefIdlt2
    refine ⟨k, by omega, Δc ++ [.setCompiled refId], ?_, hk_root, hk_perm, hk_stab, ?_⟩
    · rw [hsc_trace, hk_tr, hF2, List.append_assoc]
    · intro q c he
      rcases hk_edge q c he with h1 | ⟨hq, hc, hm⟩ | ⟨hq, hc, hpr⟩
      · exact Or.inl h1
      · exact Or.inr (Or.inl ⟨hq, hc, List.mem_append_left _ hm⟩)
      · exact Or.inr (Or.inr ⟨hq, hc, hpr.append_right _⟩)

theorem c2stmt_succ (fuel : Nat) (hV2 : V2Stmt fuel) (hC2 : C2Stmt fuel) :
    C2Stmt (fuel + 1) := by
  intro C nids tree P st t' st' h hbound hP hPm hNd hBd
  obtain ⟨rdP, hrdP, hPlt, hPmem⟩ := hP
  rw [Compiler.compileChildren.eq_def] at h
  simp only [] at h
  cases nids with
  | nil =>
      simp only [] at h
      injection h with h1 h2
      injection h1 with h1
      subst h1
      subst h2
      refine ⟨0, by omega, [], by simp, rfl, ?_, fun q _ _ => rfl, fun q c he => Or.inl he⟩
      rw [show idRange st.refs.length 0 = [] from rfl, List.append_nil]
  | cons nid rest =>
      simp only [] at h
      rcases hnd : st.nodes[nid]? with _ | nd
      · rw [hnd] at h
        exact absurd h (by simp)
      · rw [hnd] at h
        simp only [] at h
        cases hsel : nd.componentSelector with
        | none =>
            rw [hsel] at h
            simp only [] at h
            exact hC2 C rest tree P st t' st' h
              (fun n hm => hbound n (List.mem_cons_of_mem _ hm))
              ⟨rdP, hrdP, hPlt, fun n hm => hPmem n (List.mem_cons_of_mem _ hm)⟩
              hPm hNd hBd
        | some sel =>
            rw [hsel] at h
            simp only [] at h
            rcases hcv : Compiler.compileViewRef C fuel
                (C.componentsRegistry.getBySelector sel) nd.element (some tree)
                (some P) (some nid)
                (st.pushEv (.resolveChild nid sel)) with ⟨res, st2⟩
            rw [hcv] at h
            cases res with
            | error e => exact absurd h (by simp)
            | ok treeV =>
              simp only [] at h
              have hnidlt : nid < st.nodes.length := by
                by_contra hc
                rw [List.getElem?_eq_none (by omega)] at hnd
                exact Option.noConfusion hnd
              have hhv2 : ∀ h0, (some nid : Option Nat) = some h0 →
                  h0 < (st.pushEv (.resolveChild nid sel)).nodes.length := by
                intro h0 hh0
                injection hh0 with hh0
                subst hh0
                exact hnidlt
              obtain ⟨kV, hV_len, ΔV, hV_tr, hV_root, hV_perm, _hV_cp, hV_stab,
                hV_edge⟩ :=
                (hV2 C (C.componentsRegistry.getBySelector sel) nd.element
                    (some tree) (some P) (some nid)
                    (st.pushEv (.resolveChild nid sel)) treeV st2 hcv hhv2).2
                  tree P rfl rfl hPm hNd (fun y hy => hBd y hy)
              obtain ⟨kV1, hkV1, hV1_len, hV1_frame, hV1_core, _hV1_hv, ΔV1, hV1_tr,
                hV1_ds, _hV1_last⟩ :=
                (compile_ml1 fuel).1 C (C.componentsRegistry.getBySelector sel)
                  nd.element (some tree) (some P) (some nid)
                  (st.pushEv (.resolveChild nid sel)) treeV st2 hcv hhv2
              have hB1 : (st.pushEv (.resolveChild nid sel)).refs.length =
                  st.refs.length := rfl
              have hpush_refs : (st.pushEv (.resolveChild nid sel)).refs = st.refs := rfl
              rw [hB1] at hV_len hV_perm hV_edge hV1_len
              rw [hB1, hpush_refs] at hV1_frame
              rw [hB1] at hV1_ds
              have hkeq : kV1 = kV := by omega
              have hΔeq : ΔV1 = ΔV := List.append_cancel_left (hV1_tr.symm.trans hV_tr)
              have hscB : Ev.setCompiled st.refs.length ∈ ΔV := by
                have hc := hV1_ds.scCount st.refs.length
                rw [if_pos (by omega)] at hc
                rw [hΔeq] at hc
                exact List.one_le_count_iff.mp (by omega)
              have hnlenV : st.nodes.length ≤ st2.nodes.length := hV1_core.nodesLen
              have hst2P : st2.refs[P]? = some rdP := by
                rw [hV1_frame P hPlt]
                exact hrdP
              obtain ⟨kC, hC_len, ΔC, hC_tr, hC_root, hC_perm, hC_stab, hC_edge⟩ :=
                hC2 C rest treeV P st2 t' st' h
                  (fun n hm => by
                    have h1 := hbound n (List.mem_cons_of_mem _ hm)
                    omega)
                  ⟨rdP, hst2P, by omega,
                    fun n hm => hPmem n (List.mem_cons_of_mem _ hm)⟩
                  (hV_perm.mem_iff.mpr (List.mem_append_left _ hPm))
                  ((hV_perm.nodup_iff).mpr (List.Nodup.append hNd (idRange_nodup _ _)
                    (fun a ha hb => by
                      rw [mem_idRange] at hb
                      have := hBd a ha
                      omega)))
                  (fun y hy => by
                    rcases List.mem_append.mp (hV_perm.mem_iff.mp hy) with h1 | h1
                    · have := hBd y h1
                      omega
                    · rw [mem_idRange] at h1
                      omega)
              rw [hV_len] at hC_len hC_perm hC_edge
              refine ⟨kV + kC, by omega, Ev.resolveChild nid sel :: (ΔV ++ ΔC),
                ?_, hC_root.trans hV_root, ?_, ?_, ?_⟩
              · rw [hC_tr, hV_tr]
                have hpush_trace : (st.pushEv (.resolveChild nid sel)).trace =
                    st.trace ++ [.resolveChild nid sel] := rfl
                rw [hpush_trace]
                simp [List.append_assoc]
              · have heq : (tree.preorder ++ idRange st.refs.length kV) ++
                    idRange (st.refs.length + kV) kC =
                    tree.preorder ++ idRange st.refs.length (kV + kC) := by
                  rw [List.append_assoc, idRange_append]
                exact heq ▸ (hC_perm.trans (hV_perm.append_right _))
              · intro q hq hqP
                have hqV : q ∈ treeV.preorder :=
                  hV_perm.mem_iff.mpr (List.mem_append_left _ hq)
                rw [hC_stab q hqV hqP, hV_stab q hq hqP]
              · intro q c he
                rcases hC_edge q c he with h1 | ⟨hq, hc, hm⟩ | ⟨hq, hc, hpr⟩
                · rcases hV_edge q c h1 with h2 | ⟨hq, hc⟩ | ⟨hq, hc, hpr⟩
                  · exact Or.inl h2
                  · refine Or.inr (Or.inl ⟨hq, by omega, ?_⟩)
                    rw [hc]
                    exact List.mem_cons_of_mem _ (List.mem_append_left _ hscB)
                  · exact Or.inr (Or.inr ⟨hq, hc,
                      (hpr.append_right ΔC).append_left [Ev.resolveChild nid sel]⟩)
                · exact Or.inr (Or.inl ⟨hq, by omega,
                    List.mem_cons_of_mem _ (List.mem_append_right _ hm)⟩)
                · exact Or.inr (Or.inr ⟨by omega, by omega,
                    (hpr.append_left ΔV).append_left [Ev.resolveChild nid sel]⟩)

end Branjs

namespace Branjs

theorem v2_assemble_root (fuel : Nat) (hA2 : A2Stmt fuel) (C : Compiler)
    (component : Option Component) (host : Nat) (hv : Option Nat)
    (st stG stX : St) (nodesTree : NTree) (t' : VTree) (st' : St)
    (hcomp : Compiler.compileAfterGraft C fuel st.refs.length nodesTree
      (.node st.refs.length []) hv stX = (.ok t', st'))
    (hGlen : stG.nodes.length = st.nodes.length + nodesTree.preorder.length)
    (hGpre : nodesTree.preorder = idRange st.nodes.length nodesTree.preorder.length)
    (hXnodes : stX.nodes = stG.nodes)
    (hXtrace : stX.trace = st.trace ++
      [Ev.factoryCreate component host, Ev.createViewRef st.refs.length])
    (hXlen : stX.refs.length = st.refs.length + 1)
    (hXrd0 : ∃ rd0 : ViewRefData, stX.refs[st.refs.length]? = some rd0 ∧
      rd0.nodesTree = nodesTree ∧ rd0.renderHost = some host)
    (hhv : ∀ h, hv = some h → h < st.nodes.length) :
    ∃ k, st'.refs.length = st.refs.length + k ∧
    ∃ Δ, st'.trace = st.trace ++ Δ ∧
      t'.rootData = st.refs.length ∧
      t'.preorder.Perm (idRange st.refs.length k) ∧
      (∃ rd : ViewRefData, st'.refs[st.refs.length]? = some rd ∧
        rd.renderHost = some host) ∧
      (∀ q c, VTree.Edge t' q c → st.refs.length ≤ q ∧ st.refs.length ≤ c ∧
        PrecedesL Δ (.setCompiled c) (.setCompiled q)) := by
  obtain ⟨rd0, hrd0X, hrd0tree, hrd0host⟩ := hXrd0
  obtain ⟨hrootd, hnonroot, hL1⟩ := preorder_decomp hGpre
  have hhv2 : ∀ h0, hv = some h0 → h0 < stX.nodes.length ∧
      h0 ∉ nodesTree.nonRootPreorder := by
    intro h0 hh0
    have hlt := hhv h0 hh0
    refine ⟨?_, ?_⟩
    · rw [hXnodes, hGlen]
      omega
    · rw [hnonroot, mem_idRange]
      omega
  have hnids2 : ∀ nid, nid ∈ nodesTree.nonRootPreorder → nid < stX.nodes.length := by
    intro nid hm
    rw [hnonroot, mem_idRange] at hm
    rw [hXnodes, hGlen]
    omega
  have hrd0pack : ∃ rd0 : ViewRefData, stX.refs[st.refs.length]? = some rd0 ∧
      rd0.nodesTree = nodesTree ∧ nodesTree.rootData ∉ nodesTree.nonRootPreorder := by
    refine ⟨rd0, hrd0X, hrd0tree, ?_⟩
    rw [hrootd, hnonroot, mem_idRange]
    omega
  obtain ⟨kA1, hA1_len, _hA1_frame, ⟨rdA1, hrdA1, hrdA1'⟩, _hA1_core, _hA1_hv,
    _hA1_selT, ΔA1, hA1_tr, _hA1_lf, _hA1_cs, _hA1_sc, _hA1_cbs, hA1_last, _hA1_rs⟩ :=
    (compile_ml1 fuel).2.1 C st.refs.length nodesTree (.node st.refs.length []) hv stX
      t' st' hcomp hXlen hhv2 hnids2 hrd0pack
  obtain ⟨kA, hA_len, ΔA, hA_tr, hA_root, hA_perm, _hA_stab, hA_edge⟩ :=
    hA2 C st.refs.length nodesTree (.node st.refs.length []) hv stX t' st' hcomp hXlen
      hhv2 hnids2 hrd0pack (by simp) (by simp)
      (fun y hy => by
        have hyB : y = st.refs.length := by simpa using hy
        rw [hXlen]
        omega)
  have hΔeq : ΔA1 = ΔA := List.append_cancel_left (hA1_tr.symm.trans hA_tr)
  rw [hΔeq] at hA1_last
  rw [hXlen] at hA_perm hA_edge hA_len
  refine ⟨kA + 1, by omega, Ev.factoryCreate component host ::
    Ev.createViewRef st.refs.length :: ΔA, ?_, ?_, ?_, ?_, ?_⟩
  · rw [hA_tr, hXtrace]
    simp [List.append_assoc]
  · exact hA_root
  · exact hA_perm
  · have hrdA1eq : rdA1 = rd0 := by
      rw [hrd0X] at hrdA1
      exact (Option.some.inj hrdA1).symm
    rw [hrdA1eq] at hrdA1'
    exact ⟨{ rd0 with compiled := true }, hrdA1', hrd0host⟩
  · intro q c he
    rcases hA_edge q c he with h1 | ⟨hq, hc, hm⟩ | ⟨hq, hc, hpr⟩
    · exact (VTree.edge_leaf h1).elim
    · have hpr2 : PrecedesL ΔA (.setCompiled c) (.setCompiled st.refs.length) := by
        refine precedes_last_of_mem hA1_last hm ?_
        intro heq
        injection heq with heq
        omega
      refine ⟨by omega, by omega, ?_⟩
      rw [hq]
      exact hpr2.append_left [Ev.factoryCreate component host,
        Ev.createViewRef st.refs.length]
    · exact ⟨by omega, by omega, hpr.append_left [Ev.factoryCreate component host,
        Ev.createViewRef st.refs.length]⟩

theorem v2_assemble_graft (fuel : Nat) (hA2 : A2Stmt fuel) (C : Compiler)
    (component : Option Component) (host : Nat) (hv : Option Nat)
    (st stG stX : St) (nodesTree : NTree) (tv tGr t' : VTree) (p : Nat) (st' : St)
    (hcomp : Compiler.compileAfterGraft C fuel st.refs.length nodesTree tGr hv stX =
      (.ok t', st'))
    (haddU : VTree.addUnder tv p st.refs.length = some tGr)
    (hGlen : stG.nodes.length = st.nodes.length + nodesTree.preorder.length)
    (hGpre : nodesTree.preorder = idRange st.nodes.length nodesTree.preorder.length)
    (hXnodes : stX.nodes = stG.nodes)
    (hXtrace : stX.trace = st.trace ++
      [Ev.factoryCreate component host, Ev.createViewRef st.refs.length])
    (hXlen : stX.refs.length = st.refs.length + 1)
    (hXrd0 : ∃ rd0 : ViewRefData, stX.refs[st.refs.length]? = some rd0 ∧
      rd0.nodesTree = nodesTree)
    (hhv : ∀ h, hv = some h → h < st.nodes.length)
    (hPmem : p ∈ tv.preorder) (hNd : tv.preorder.Nodup)
    (hBd : ∀ y ∈ tv.preorder, y < st.refs.length) :
    ∃ k, st'.refs.length = st.refs.length + k ∧
    ∃ Δ, st'.trace = st.trace ++ Δ ∧
      t'.rootData = tv.rootData ∧
      t'.preorder.Perm (tv.preorder ++ idRange st.refs.length k) ∧
      t'.childrenIds p = tv.childrenIds p ++ [st.refs.length] ∧
      (∀ q, q ∈ tv.preorder → q ≠ p → t'.childrenIds q = tv.childrenIds q) ∧
      (∀ q c, VTree.Edge t' q c → VTree.Edge tv q c ∨ (q = p ∧ c = st.refs.length) ∨
        (st.refs.length ≤ q ∧ st.refs.length ≤ c ∧
          PrecedesL Δ (.setCompiled c) (.setCompiled q))) := by
  obtain ⟨rd0, hrd0X, hrd0tree⟩ := hXrd0
  obtain ⟨hrootd, hnonroot, hL1⟩ := preorder_decomp hGpre
  have hBnotin : st.refs.length ∉ tv.preorder := fun hm => by
    have := hBd _ hm
    omega
  have hperm1 := VTree.addUnder_preorder tv p st.refs.length tGr haddU
  have hroot1 := VTree.addUnder_rootData haddU
  have hcid := VTree.addUnder_childrenIds tv p st.refs.length tGr hBnotin haddU
  have hhv2 : ∀ h0, hv = some h0 → h0 < stX.nodes.length ∧
      h0 ∉ nodesTree.nonRootPreorder := by
    intro h0 hh0
    have hlt := hhv h0 hh0
    refine ⟨?_, ?_⟩
    · rw [hXnodes, hGlen]
      omega
    · rw [hnonroot, mem_idRange]
      omega
  have hnids2 : ∀ nid, nid ∈ nodesTree.nonRootPreorder → nid < stX.nodes.length := by
    intro nid hm
    rw [hnonroot, mem_idRange] at hm
    rw [hXnodes, hGlen]
    omega
  have hrd0pack : ∃ rd0 : ViewRefData, stX.refs[st.refs.length]? = some rd0 ∧
      rd0.nodesTree = nodesTree ∧ nodesTree.rootData ∉ nodesTree.nonRootPreorder := by
    refine ⟨rd0, hrd0X, hrd0tree, ?_⟩
    rw [hrootd, hnonroot, mem_idRange]
    omega
  obtain ⟨kA1, hA1_len, _hA1_frame, ⟨rdA1, hrdA1, hrdA1'⟩, _hA1_core, _hA1_hv,
    _hA1_selT, ΔA1, hA1_tr, _hA1_lf, _hA1_cs, _hA1_sc, _hA1_cbs, hA1_last, _hA1_rs⟩ :=
    (compile_ml1 fuel).2.1 C st.refs.length nodesTree tGr hv stX
      t' st' hcomp hXlen hhv2 hnids2 hrd0pack
  obtain ⟨kA, hA_len, ΔA, hA_tr, hA_root, hA_perm, hA_stab, hA_edge⟩ :=
    hA2 C st.refs.length nodesTree tGr hv stX t' st' hcomp hXlen
      hhv2 hnids2 hrd0pack
      (hperm1.mem_iff.mpr (List.mem_cons_self _ _))
      ((hperm1.nodup_iff).mpr (List.nodup_cons.mpr ⟨hBnotin, hNd⟩))
      (fun y hy => by
        rw [hXlen]
        rcases List.mem_cons.mp (hperm1.mem_iff.mp hy) with rfl | h2
        · omega
        · have := hBd y h2
          omega)
  have hΔeq : ΔA1 = ΔA := List.append_cancel_left (hA1_tr.symm.trans hA_tr)
  rw [hΔeq] at hA1_last
  rw [hXlen] at hA_perm hA_edge hA_len
  refine ⟨kA + 1, by omega, Ev.factoryCreate component host ::
    Ev.createViewRef st.refs.length :: ΔA, ?_, ?_, ?_, ?_, ?_, ?_⟩
  · rw [hA_tr, hXtrace]
    simp [List.append_assoc]
  · exact hA_root.trans hroot1
  · exact hA_perm.trans ((hperm1.append_right _).trans List.perm_middle.symm)
  · have hptGr : p ∈ tGr.preorder := hperm1.mem_iff.mpr (List.mem_cons_of_mem _ hPmem)
    have hpB : p ≠ st.refs.length := fun hh => by
      have := hBd p hPmem
      omega
    rw [hA_stab p hptGr hpB, hcid p, if_pos rfl]
  · intro q hq hqp
    have hqB : q ≠ st.refs.length := fun hh => by
      have := hBd q hq
      omega
    have hqtGr : q ∈ tGr.preorder := hperm1.mem_iff.mpr (List.mem_cons_of_mem _ hq)
    rw [hA_stab q hqtGr hqB, hcid q, if_neg hqp, if_neg hqB]
  · intro q c he
    rcases hA_edge q c he with h1 | ⟨hq, hc, hm⟩ | ⟨hq, hc, hpr⟩
    · rw [VTree.Edge, hcid q] at h1
      by_cases hqp : q = p
      · rw [if_pos hqp] at h1
        rcases List.mem_append.mp h1 with h2 | h2
        · subst hqp
          exact Or.inl h2
        · have hcB : c = st.refs.length := by simpa using h2
          exact Or.inr (Or.inl ⟨hqp, hcB⟩)
      · rw [if_neg hqp] at h1
        by_cases hqB : q = st.refs.length
        · rw [if_pos hqB] at h1
          simp at h1
        · rw [if_neg hqB] at h1
          exact Or.inl h1
    · have hpr2 : PrecedesL ΔA (.setCompiled c) (.setCompiled st.refs.length) := by
        refine precedes_last_of_mem hA1_last hm ?_
        intro heq
        injection heq with heq
        omega
      refine Or.inr (Or.inr ⟨by omega, by omega, ?_⟩)
      rw [hq]
      exact hpr2.append_left [Ev.factoryCreate component host,
        Ev.createViewRef st.refs.length]
    · exact Or.inr (Or.inr ⟨by omega, by omega,
        hpr.append_left [Ev.factoryCreate component host,
          Ev.createViewRef st.refs.length]⟩)

end Branjs

namespace Branjs

theorem v2stmt_succ (fuel : Nat) (hA2 : A2Stmt fuel) : V2Stmt (fuel + 1) := by
  intro C component host vt pv hv st t' st' h hhv
  rw [Compiler.compileViewRef.eq_def] at h
  simp only [] at h
  rcases hfc : C.componentFactory.create component host with e | componentRef
  · rw [hfc] at h
    exact absurd h (by simp)
  · rw [hfc] at h
    simp only [] at h
    rcases hgv : Compiler.getViewNodes C.bindingBuilder
        (C.parser.parse componentRef.template host)
        (st.pushEv (.factoryCreate component host)) with ⟨res1, stG⟩
    rw [hgv] at h
    cases res1 with
    | error e => exact absurd h (by simp)
    | ok nodesTree =>
      simp only [] at h
      simp only [St.allocRef] at h
      obtain ⟨hGrefs, hGtrace, _hGroot0, hGlen, hGpre, _hGframe, _hGvr, _hGrootrec⟩ :=
        getViewNodes_spec C.bindingBuilder (C.parser.parse componentRef.template host)
          (st.pushEv (.factoryCreate component host)) nodesTree stG hgv
      have hGrefs2 : stG.refs = st.refs := hGrefs
      have hGtrace2 : stG.trace = st.trace ++ [Ev.factoryCreate component host] := hGtrace
      have hGlen2 : stG.nodes.length = st.nodes.length + nodesTree.preorder.length := hGlen
      have hGpre2 : nodesTree.preorder =
          idRange st.nodes.length nodesTree.preorder.length := hGpre
      rw [hGrefs2] at h
      cases vt with
      | none =>
        cases pv with
        | none =>
            simp only [] at h
            refine ⟨?_, fun t p hvt => Option.noConfusion hvt⟩
            intro _ _
            have hlt1 : st.refs.length <
                (st.refs ++ [(⟨componentRef, nodesTree, none, false⟩ : ViewRefData)]).length := by
              simp
            obtain ⟨hU_nodes, hU_trace, hU_len, _hU_frame, rdU, hrdU, hrdU'⟩ :=
              updateRenderHost_spec
                { stG with
                    refs := st.refs ++ [⟨componentRef, nodesTree, none, false⟩]
                    trace := stG.trace ++ [.createViewRef st.refs.length] }
                st.refs.length host hlt1
            have hrdUeq : rdU = ⟨componentRef, nodesTree, none, false⟩ := by
              have hcc : (st.refs ++
                  [(⟨componentRef, nodesTree, none, false⟩ : ViewRefData)])[st.refs.length]? =
                  some ⟨componentRef, nodesTree, none, false⟩ := by simp
              rw [hcc] at hrdU
              exact (Option.some.inj hrdU).symm
            rw [hrdUeq] at hrdU'
            refine v2_assemble_root fuel hA2 C component host hv st stG _ nodesTree t' st'
              h hGlen2 hGpre2 ?_ ?_ ?_ ?_ hhv
            · rw [hU_nodes]
            · rw [hU_trace]
              simp only []
              rw [hGtrace2, List.append_assoc]
              rfl
            · rw [hU_len]
              simp
            · exact ⟨_, hrdU', rfl, rfl⟩
        | some pV =>
            simp only [] at h
            exact absurd h (by simp)
      | some tv =>
        cases pv with
        | none =>
            simp only [] at h
            exact absurd h (by simp)
        | some pV =>
            simp only [] at h
            refine ⟨fun hvt => Option.noConfusion hvt, ?_⟩
            intro t p0 hvt hpv hPmem hNd hBd
            obtain rfl := Option.some.inj hvt
            obtain rfl := Option.some.inj hpv
            rcases haddU : VTree.addUnder tv pV st.refs.length with _ | tGr
            · rw [haddU] at h
              exact absurd h (by simp)
            · rw [haddU] at h
              simp only [] at h
              refine v2_assemble_graft fuel hA2 C component host hv st stG _ nodesTree
                tv tGr t' pV st' h haddU hGlen2 hGpre2 ?_ ?_ ?_ ?_ hhv hPmem hNd hBd
              · rfl
              · simp only []
                rw [hGtrace2, List.append_assoc]
                rfl
              · simp
              · exact ⟨⟨componentRef, nodesTree, none, false⟩, by simp, rfl⟩

theorem compile_ml2 : ∀ fuel, V2Stmt fuel ∧ A2Stmt fuel ∧ C2Stmt fuel := by
  intro fuel
  induction fuel with
  | zero => exact ⟨v2stmt_zero, a2stmt_zero, c2stmt_zero⟩
  | succ f ih =>
      exact ⟨v2stmt_succ f ih.2.1, a2stmt_succ f ih.2.2, c2stmt_succ f ih.1 ih.2.2⟩

end Branjs

namespace Branjs

/-! ### Claims C4 and C7 -/

/-- Claim C4: in every compilation pass from a fresh store, each created
ViewRef's compiled flag is written exactly once (the only write anywhere in
the sources stores `true`, and every stored ViewRef ends compiled, so the
flag transitions false-to-true once and never reverts), the write happens
after the ViewRef — created together with its ViewNode tree — exists, no
other ViewRef id is ever written, and along the returned tree every
transitively discovered descendant ViewRef is marked compiled strictly
before its ancestor. -/
theorem claim_compiled_once_after_descendants
    (C : Compiler) (fuel : Nat) (component : Component) (host : Nat)
    (t' : VTree) (st' : St)
    (h : C.compile fuel component host St.empty = (.ok t', st')) :
    (∀ r, r < st'.refs.length →
      st'.trace.count (.setCompiled r) = 1 ∧
      PrecedesL st'.trace (.createViewRef r) (.setCompiled r) ∧
      ∀ rd : ViewRefData, st'.refs[r]? = some rd → rd.compiled = true) ∧
    (∀ r, st'.refs.length ≤ r → st'.trace.count (.setCompiled r) = 0) ∧
    (∀ q c, Relation.TransGen (VTree.Edge t') q c →
      PrecedesL st'.trace (.setCompiled c) (.setCompiled q)) := by
  obtain ⟨k, hk1, hlen, _hframe, hcore, _hhv, Δ, htr, hds, _hlast⟩ :=
    (compile_ml1 fuel).1 C (some component) host none none none St.empty t' st' h
      (fun h0 hh0 => Option.noConfusion hh0)
  obtain ⟨hrootB, _⟩ := (compile_ml2 fuel).1 C (some component) host none none none
    St.empty t' st' h (fun h0 hh0 => Option.noConfusion hh0)
  obtain ⟨k2, _hlen2, Δ2, htr2, _hrd2, _hperm2, _hhost2, hedge2⟩ := hrootB rfl rfl
  have hT : st'.trace = Δ := htr
  have hT2 : st'.trace = Δ2 := htr2
  have hB : St.empty.refs.length = 0 := rfl
  rw [hB] at hlen
  have hedge3 : ∀ q c, VTree.Edge t' q c →
      PrecedesL st'.trace (.setCompiled c) (.setCompiled q) := by
    intro q c he
    rw [hT2]
    exact (hedge2 q c he).2.2
  have hcount : ∀ r, st'.trace.count (.setCompiled r) = if r < k then 1 else 0 := by
    intro r
    have hc := hds.scCount r
    rw [hT, hc, hB]
    by_cases hr : r < k
    · rw [if_pos (by omega : 0 ≤ r ∧ r < 0 + k), if_pos hr]
    · rw [if_neg (by omega : ¬(0 ≤ r ∧ r < 0 + k)), if_neg hr]
  refine ⟨?_, ?_, ?_⟩
  · intro r hr
    refine ⟨?_, ?_, ?_⟩
    · rw [hcount r, if_pos (by omega)]
    · have hp := hds.createBeforeSc r (by omega) (by omega)
      rw [hT]
      exact hp
    · intro rd hrd
      exact hcore.refsNewCompiled r rd (Nat.zero_le r) hrd
  · intro r hr
    rw [hcount r, if_neg (by omega)]
  · intro q c htg
    induction htg with
    | single he => exact hedge3 _ _ he
    | @tail b c2 hqb hbc ih =>
        have h1 := hedge3 _ _ hbc
        have hmem : Ev.setCompiled b ∈ st'.trace := h1.mem_right
        have hb1 : st'.trace.count (.setCompiled b) = 1 := by
          have hge1 : 1 ≤ st'.trace.count (.setCompiled b) :=
            List.one_le_count_iff.mpr hmem
          have hc := hcount b
          by_cases hbk : b < k
          · rw [if_pos hbk] at hc
            exact hc
          · rw [if_neg hbk] at hc
            omega
        exact PrecedesL.trans_count h1 ih hb1

/-- Witness for C4: in the demo compilation the root ViewRef's compiled
flag is set exactly once, after its creation, and its child ViewRef (an
edge of the returned tree) is marked compiled strictly before it. -/
theorem claim_compiled_once_after_descendants_witness :
    demoOut.2.trace.count (.setCompiled 0) = 1 ∧
    PrecedesL demoOut.2.trace (.createViewRef 0) (.setCompiled 0) ∧
    PrecedesL demoOut.2.trace (.setCompiled 1) (.setCompiled 0) := by
  have hmain := claim_compiled_once_after_descendants demoCompiler 10 ⟨"app", "appT"⟩ 0
    demoTree demoOut.2 (by rfl)
  exact ⟨(hmain.1 0 (by decide)).1, (hmain.1 0 (by decide)).2.1,
    hmain.2.2 0 1 (Relation.TransGen.single
      (by decide : (1 : Nat) ∈ demoTree.childrenIds 0))⟩

/-- Claim C7: a successful `_compileViewRef` call with no existing tree and
no parent (the outermost call, as made by `compile`) returns a tree rooted
at the newly created ViewRef whose render host is immediately fixed to the
given host element, and that single tree covers exactly the ViewRefs the
pass created; a successful recursive call (existing tree and parent
supplied) instead grafts the new ViewRef as the last child of the
caller-supplied parent in the shared tree — leaving the root and every
other node's children untouched — records the new ViewRef on the
caller-supplied hosting ViewNode, and hands back the one shared tree now
also covering all ViewRefs of the subtree it compiled. -/
theorem claim_root_call_tree_and_recursive_graft
    (C : Compiler) (fuel : Nat) (component : Option Component) (host : Nat)
    (vt : Option VTree) (pv : Option Nat) (hv : Option Nat) (st : St)
    (t' : VTree) (st' : St)
    (h : Compiler.compileViewRef C fuel component host vt pv hv st = (.ok t', st'))
    (hhv : ∀ h0, hv = some h0 → h0 < st.nodes.length) :
    (vt = none → pv = none →
      t'.rootData = st.refs.length ∧
      (∃ rd : ViewRefData, st'.refs[st.refs.length]? = some rd ∧
        rd.renderHost = some host) ∧
      ∃ k, st'.refs.length = st.refs.length + k ∧
        t'.preorder.Perm (idRange st.refs.length k)) ∧
    (∀ t p, vt = some t → pv = some p → p ∈ t.preorder → t.preorder.Nodup →
      (∀ y ∈ t.preorder, y < st.refs.length) →
      t'.rootData = t.rootData ∧
      t'.childrenIds p = t.childrenIds p ++ [st.refs.length] ∧
      (∀ q, q ∈ t.preorder → q ≠ p → t'.childrenIds q = t.childrenIds q) ∧
      (∀ h0, hv = some h0 → ∃ nd : ViewNodeData, st.nodes[h0]? = some nd ∧
        st'.nodes[h0]? = some { nd with viewRef := some st.refs.length }) ∧
      ∃ k, st'.refs.length = st.refs.length + k ∧
        t'.preorder.Perm (t.preorder ++ idRange st.refs.length k)) := by
  obtain ⟨hroot, hgraft⟩ := (compile_ml2 fuel).1 C component host vt pv hv st t' st' h hhv
  obtain ⟨kk, _, _, _, _, hV_hv, _, _, _, _⟩ :=
    (compile_ml1 fuel).1 C component host vt pv hv st t' st' h hhv
  constructor
  · intro hvt hpv
    obtain ⟨k, hlen, Δ, _htr, hrd, hperm, hhost, _hedge⟩ := hroot hvt hpv
    exact ⟨hrd, hhost, k, hlen, hperm⟩
  · intro t p hvt hpv h1 h2 h3
    obtain ⟨k, hlen, Δ, _htr, hrd, hperm, hcp, hstab, _hedge⟩ :=
      hgraft t p hvt hpv h1 h2 h3
    exact ⟨hrd, hcp, hstab, hV_hv, k, hlen, hperm⟩

/-- Witness for C7: the outermost demo compile returns the tree rooted at
ViewRef 0 with its render host fixed to host 0, covering ViewRefs 0 and 1;
the recursive graft fixture hangs the new ViewRef 1 as last child of parent
0 in the shared tree and records it on hosting ViewNode 0. -/
theorem claim_root_call_tree_and_recursive_graft_witness :
    (demoTree.rootData = 0 ∧
      (∃ rd : ViewRefData, demoOut.2.refs[0]? = some rd ∧
        rd.renderHost = some 0) ∧
      ∃ k, demoOut.2.refs.length = 0 + k ∧
        demoTree.preorder.Perm (idRange 0 k)) ∧
    (graftTree.rootData = (RTree.node 0 [] : VTree).rootData ∧
      graftTree.childrenIds 0 = VTree.childrenIds (RTree.node 0 []) 0 ++ [1] ∧
      (∀ q, q ∈ (RTree.node 0 [] : VTree).preorder → q ≠ 0 →
        graftTree.childrenIds q = VTree.childrenIds (RTree.node 0 []) q) ∧
      (∀ h0, (some 0 : Option Nat) = some h0 → ∃ nd : ViewNodeData,
        graftSt.nodes[h0]? = some nd ∧
        graftOut.2.nodes[h0]? = some { nd with viewRef := some 1 }) ∧
      ∃ k, graftOut.2.refs.length = 1 + k ∧
        graftTree.preorder.Perm ((RTree.node 0 [] : VTree).preorder ++ idRange 1 k)) := by
  constructor
  · exact (claim_root_call_tree_and_recursive_graft demoCompiler 10
      (some ⟨"app", "appT"⟩) 0 none none none St.empty demoTree demoOut.2 (by rfl)
      (fun h0 hh0 => Option.noConfusion hh0)).1 rfl rfl
  · exact (claim_root_call_tree_and_recursive_graft demoCompiler 10
      (some ⟨"child", "childT"⟩) 10 (some (.node 0 [])) (some 0) (some 0) graftSt
      graftTree graftOut.2 (by rfl)
      (fun h0 hh0 => by
        injection hh0 with hh
        subst hh
        decide)).2 (.node 0 []) 0 rfl rfl (by decide) (by decide) (by decide)

end Branjs
